import Mathlib

/-!
Verification development for the gaspricescraper repository.

The pipelines in `scrapebensinpriser.py` and `scrapebensinstation.py` are
embedded shallowly: pure helper functions become Lean functions over
`List Char` / `String`, Python floats become `ℚ`, Python dicts/sets used as
counters become association-free lists with `List.count` / membership, and
`None`-returning fallible helpers return `Option`.  The HTML fetch/query and
CSV I/O collaborators are abstracted as the already-extracted texts
(row cell texts, store row lists), exactly at the boundary the spec declares
them external.  `date.today()` is passed explicitly as a `SDate` parameter.
-/

/-- Characters Python's `str.strip()` removes and `\s` matches (the common
whitespace set, including NBSP). -/
def pyWs (c : Char) : Bool :=
  c = ' ' || c = '\t' || c = '\n' || c = '\r' || c = '\x0b' || c = '\x0c' || c = '\xa0'

/-- ASCII digit test; Python's `\d` (the scraped texts contain only ASCII digits). -/
def isDigitC (c : Char) : Bool := 48 ≤ c.toNat && c.toNat ≤ 57

/-- Python regex word character (`\w`), restricted to the character set the
scraped Swedish texts use: ASCII alphanumerics, underscore and the Swedish
letters. -/
def wordC (c : Char) : Bool :=
  ('a' ≤ c && c ≤ 'z') || ('A' ≤ c && c ≤ 'Z') || isDigitC c || c = '_' ||
  c = 'å' || c = 'ä' || c = 'ö' || c = 'Å' || c = 'Ä' || c = 'Ö' || c = 'é' || c = 'É'

/-- Python `str.lower()` on the character set in play (ASCII + Å/Ä/Ö/É). -/
def lowerC (c : Char) : Char :=
  if c = 'Å' then 'å'
  else if c = 'Ä' then 'ä'
  else if c = 'Ö' then 'ö'
  else if c = 'É' then 'é'
  else c.toLower

def lowerL (l : List Char) : List Char := l.map lowerC

/-- Python `str.strip()` (both-ends whitespace trim). -/
def pyStrip (l : List Char) : List Char :=
  ((l.dropWhile pyWs).reverse.dropWhile pyWs).reverse

def pyStripS (s : String) : String := ⟨pyStrip s.data⟩

def lowerS (s : String) : String := ⟨lowerL s.data⟩

/-- `pat.isPrefixOf l` written out structurally (Python `str.startswith`). -/
def startsWithL : List Char → List Char → Bool
  | [], _ => true
  | _ :: _, [] => false
  | p :: ps, c :: cs => p = c && startsWithL ps cs

/-- Python `pat in s` substring containment. -/
def containsSub (pat : List Char) : List Char → Bool
  | [] => startsWithL pat []
  | c :: cs => startsWithL pat (c :: cs) || containsSub pat cs

def startsWithS (pat s : String) : Bool := startsWithL pat.data s.data

def containsS (pat s : String) : Bool := containsSub pat.data s.data

/-- Numeric value of a digit string (Python `int` on a `\d+` token). -/
def natOfDigits (l : List Char) : Nat :=
  l.foldl (fun a c => a * 10 + (c.toNat - 48)) 0

/-- Maximal leading digit run and the rest (how an anchored `\d{..}` group
followed by a non-digit requirement consumes input). -/
def digitSpan (l : List Char) : List Char × List Char :=
  (l.takeWhile isDigitC, l.dropWhile isDigitC)

/-- Calendar dates, standing for Python `datetime.date` values. -/
structure SDate where
  year : Nat
  month : Nat
  day : Nat
deriving DecidableEq, Repr

def isLeap (y : Nat) : Bool := y % 4 = 0 && (y % 100 ≠ 0 || y % 400 = 0)

def daysInMonth (y m : Nat) : Nat :=
  if m = 2 then (if isLeap y then 29 else 28)
  else if m = 4 || m = 6 || m = 9 || m = 11 then 30
  else 31

/-- The dates `datetime.date(y, m, d)` accepts (`MINYEAR = 1`, `MAXYEAR = 9999`). -/
def validDate (y m d : Nat) : Bool :=
  1 ≤ y && y ≤ 9999 && 1 ≤ m && m ≤ 12 && 1 ≤ d && d ≤ daysInMonth y m

def pad2 (n : Nat) : String := if n < 10 then "0" ++ toString n else toString n

def pad4 (n : Nat) : String :=
  if n < 10 then "000" ++ toString n
  else if n < 100 then "00" ++ toString n
  else if n < 1000 then "0" ++ toString n
  else toString n

/-- `f"{y:04d}-{m:02d}-{d:02d}"`, which is also `date.isoformat()` for valid dates. -/
def fmtYMD (y m d : Nat) : String := pad4 y ++ "-" ++ pad2 m ++ "-" ++ pad2 d

def isoformat (dt : SDate) : String := fmtYMD dt.year dt.month dt.day

/-- `d - timedelta(days=1)` on calendar dates. -/
def predDate (dt : SDate) : SDate :=
  if 2 ≤ dt.day then ⟨dt.year, dt.month, dt.day - 1⟩
  else if 2 ≤ dt.month then ⟨dt.year, dt.month - 1, daysInMonth dt.year (dt.month - 1)⟩
  else ⟨dt.year - 1, 12, 31⟩

/-- `datetime(year=y, month=m, day=d).date().isoformat()` wrapped in
`try/except`: `some` of the canonical rendering when the date is
constructible, `none` when the constructor raises. -/
def mkValidIso (y m d : Nat) : Option String :=
  if validDate y m d then some (fmtYMD y m d) else none

/-! ## scrapebensinpriser.py helpers -/

/-- The char class kept by `re.sub(r"[^\d,.\-]", "", s)`. -/
def keepNumC (c : Char) : Bool := isDigitC c || c = ',' || c = '.' || c = '-'

/-- Comma-to-dot locale fix: `if "," in cleaned and "." not in cleaned:
cleaned = cleaned.replace(",", ".")`. -/
def commaFix (l : List Char) : List Char :=
  if containsSub [','] l && !containsSub ['.'] l then
    l.map (fun c => if c = ',' then '.' else c)
  else l

/-- Python `float()` applied to a string over the residual char set
`[0-9,.-]`: optional minus sign, then digits with at most one dot
(`\d+`, `\d+.\d*` or `.\d+`); anything else raises, modelled as `none`.
The decimal value is represented exactly in `ℚ`. -/
def pyFloatOfCleaned (l : List Char) : Option ℚ :=
  let (neg, body) : Bool × List Char :=
    match l with
    | '-' :: rest => (true, rest)
    | _ => (false, l)
  let sgn : ℤ → ℤ := fun n => if neg then -n else n
  let (ip, rest) := digitSpan body
  match rest with
  | [] =>
      if ip.isEmpty then none
      else some (mkRat (sgn (natOfDigits ip : ℤ)) 1)
  | '.' :: frac =>
      let (fp, rest2) := digitSpan frac
      if rest2.isEmpty && !(ip.isEmpty && fp.isEmpty) then
        some (mkRat (sgn ((natOfDigits ip * 10 ^ fp.length + natOfDigits fp : Nat) : ℤ))
          (10 ^ fp.length))
      else none
  | _ => none

/-- `parse_number` from scrapebensinpriser.py: strip, keep only
`[0-9,.-]`, convert a lone comma convention to a dot, parse as float;
`None` (here `none`) on failure.  (The `.replace(" ", "")` in the source is a
no-op: spaces were already removed by the preceding `re.sub`.) -/
def parse_number (s : String) : Option ℚ :=
  let t := pyStrip s.data
  if t.isEmpty then none
  else pyFloatOfCleaned (commaFix (t.filter keepNumC))

/-- Anchored match of `^(\d{4})-(\d{1,2})-(\d{1,2})$` (the separator is a
literal `-` in `normalize_date_str`). -/
def matchIso3 (l : List Char) : Option (Nat × Nat × Nat) :=
  let (r1, s1) := digitSpan l
  if r1.length = 4 then
    match s1 with
    | '-' :: s2 =>
        let (r2, s3) := digitSpan s2
        if 1 ≤ r2.length && r2.length ≤ 2 then
          match s3 with
          | '-' :: s4 =>
              let (r3, s5) := digitSpan s4
              if 1 ≤ r3.length && r3.length ≤ 2 && s5.isEmpty then
                some (natOfDigits r1, natOfDigits r2, natOfDigits r3)
              else none
          | _ => none
        else none
    | _ => none
  else none

/-- Anchored match of `^(\d{1,2})/(\d{1,2})$`, giving (day, month). -/
def matchDM (l : List Char) : Option (Nat × Nat) :=
  let (r1, s1) := digitSpan l
  if 1 ≤ r1.length && r1.length ≤ 2 then
    match s1 with
    | '/' :: s2 =>
        let (r2, s3) := digitSpan s2
        if 1 ≤ r2.length && r2.length ≤ 2 && s3.isEmpty then
          some (natOfDigits r1, natOfDigits r2)
        else none
    | _ => none
  else none

/-- The year-inference rule shared by all no-explicit-year date branches:
`today.year - 1` when (month, day) is strictly after (today.month, today.day)
lexicographically, else `today.year`. -/
def inferYear (today : SDate) (month day : Nat) : Nat :=
  if month > today.month || (month = today.month && day > today.day) then
    today.year - 1
  else today.year

/-- `normalize_date_str` from scrapebensinpriser.py.  Relative-word prefixes,
then the `-`-separated ISO shape (reformatted with zero padding, with **no**
calendar validation), then `dd/mm` with inferred year (again unvalidated),
else `None`. -/
def normalize_date_str (today : SDate) (raw : String) : Option String :=
  let s := pyStrip raw.data
  if s.isEmpty then none
  else
    let low := lowerL s
    if startsWithL "idag".data low then some (isoformat today)
    else if startsWithL "igår".data low || startsWithL "igar".data low ||
        startsWithL "ig".data low then
      some (isoformat (predDate today))
    else
      match matchIso3 s with
      | some (y, mo, d) => some (fmtYMD y mo d)
      | none =>
          match matchDM s with
          | some (day, month) => some (fmtYMD (inferYear today month day) month day)
          | none => none

/-- The keys of `FUEL_URLS` / `ROW_LIMITS`, in dict insertion order. -/
def FUEL_KEYS : List String := ["95 (E10)", "98", "Diesel", "Etanol"]

/-- `normalize_fuel` from scrapebensinpriser.py. -/
def normalize_fuel (f : String) : String :=
  let fs := pyStripS f
  match FUEL_KEYS.find? (fun k => lowerS fs = lowerS k) with
  | some k => k
  | none =>
      let low := lowerS fs
      if containsS "95" low then "95 (E10)"
      else if containsS "98" low then "98"
      else if containsS "diesel" low then "Diesel"
      else if containsS "etanol" low then "Etanol"
      else fs

def MIN_PRICE : String → Option ℚ
  | "95 (E10)" => some 14 | "98" => some 14 | "Diesel" => some 14 | "Etanol" => some 11
  | _ => none

def MAX_PRICE : String → Option ℚ
  | "95 (E10)" => some 27 | "98" => some 30 | "Diesel" => some 35 | "Etanol" => some 35
  | _ => none

def ROW_LIMITS : String → Option Nat
  | "95 (E10)" => some 6 | "98" => some 3 | "Diesel" => some 6 | "Etanol" => some 3
  | _ => none

/-- `price_val < MIN_PRICE.get(fk, 0.0) or price_val > MAX_PRICE.get(fk, float("inf"))`. -/
def priceOutOfBounds (f : String) (p : ℚ) : Bool :=
  p < (MIN_PRICE f).getD 0 ||
  (match MAX_PRICE f with
   | some mx => decide (p > mx)
   | none => false)

/-- `f"{p:.3f}"` for the key: the price scaled to integer thousandths
(rounded; Python's float formatting is modelled as rational rounding,
written in pure integer arithmetic: `⌊1000 p + 1/2⌋`). -/
def round3 (q : ℚ) : ℤ := Int.ediv (2000 * q.num + (q.den : ℤ)) (2 * (q.den : ℤ))

/-- Identity key of a bensinpriser record. -/
abbrev PKey := String × Option ℤ × String × String

/-- `make_key_norm` from scrapebensinpriser.py: lowercased trimmed station,
price to 3 decimals (`none` standing for the empty-string price component),
trimmed date, lowercased trimmed fuel. -/
def make_key_norm (station : String) (price : Option ℚ) (dateIso fuel : String) : PKey :=
  (lowerS (pyStripS station), price.map round3, pyStripS dateIso, lowerS (pyStripS fuel))

/-! ## scrapebensinstation.py helpers -/

/-- The `_MONTHS` table, in dict insertion order. -/
def MONTHS : List (String × Nat) :=
  [("jan", 1), ("januari", 1), ("feb", 2), ("februari", 2), ("mar", 3), ("mars", 3),
   ("apr", 4), ("april", 4), ("maj", 5), ("jun", 6), ("juni", 6), ("jul", 7), ("juli", 7),
   ("aug", 8), ("augusti", 8), ("sep", 9), ("sept", 9), ("september", 9),
   ("okt", 10), ("oktober", 10), ("nov", 11), ("november", 11), ("dec", 12), ("december", 12)]

/-- The diacritic removal building `low_nodiac`. -/
def nodiacC (c : Char) : Char :=
  if c = 'å' then 'a' else if c = 'ä' then 'a' else if c = 'ö' then 'o' else c

def boundaryOk : Option Char → Bool
  | none => true
  | some c => !wordC c

/-- `re.search(r"\bforr", l)` viewed as a Bool: a position with a word
boundary followed by the literal `forr`. -/
def hasBforrAux : Option Char → List Char → Bool
  | _, [] => false
  | prev, c :: cs =>
      (boundaryOk prev && startsWithL "forr".data (c :: cs)) || hasBforrAux (some c) cs

def hasBforr (l : List Char) : Bool := hasBforrAux none l

/-- `re.sub(r"^(datum[:\s-]*)", "", low)`: drop a leading `datum` and the
following run of colons, whitespace and dashes. -/
def stripDatumPfx (l : List Char) : List Char :=
  if startsWithL "datum".data l then
    (l.drop 5).dropWhile (fun c => c = ':' || pyWs c || c = '-')
  else l

/-- Match the part of `kl\.?\s*\d{1,2}(:\d{2})?\b` after `kl` and the optional
dot: whitespace run, a 1–2 digit run, an optional `:dd` whose trailing word
boundary must hold (otherwise the optional group backtracks away).  Returns
the number of characters consumed, or `none` when no match survives
backtracking (digit run absent or 3+ long, or a word character right after
the digits). -/
def klTailMatch (l : List Char) : Option Nat :=
  let ws := l.takeWhile pyWs
  let afterWs := l.drop ws.length
  let (ds, rest) := digitSpan afterWs
  if ds.length = 0 || 3 ≤ ds.length then none
  else
    let base := ws.length + ds.length
    match rest with
    | ':' :: d1 :: d2 :: rest2 =>
        if isDigitC d1 && isDigitC d2 &&
            (match rest2 with | [] => true | c :: _ => !wordC c) then
          some (base + 3)
        else some base
    | [] => some base
    | c :: _ => if wordC c then none else some base

/-- Match `kl\.?\s*\d{1,2}(:\d{2})?\b` at the head of the list (the caller
checks the leading word boundary).  When the optional dot is present but the
rest fails, backtracking without the dot also fails (`\s*` cannot match `.`),
so mapping over the after-dot attempt is exact. -/
def matchKlAt (l : List Char) : Option Nat :=
  match l with
  | 'k' :: 'l' :: '.' :: rest => (klTailMatch rest).map (fun n => n + 3)
  | 'k' :: 'l' :: rest => (klTailMatch rest).map (fun n => n + 2)
  | _ => none

/-- `re.sub(r"\bkl\.?\s*\d{1,2}(:\d{2})?\b", "", s)`: leftmost-match scan,
removing each match and resuming right after it.  Each step consumes at
least one input character, so fuel `length + 1` makes the scan total. -/
def removeKlAux : Nat → Option Char → List Char → List Char
  | 0, _, l => l
  | _ + 1, _, [] => []
  | fuel + 1, prev, c :: cs =>
      if boundaryOk prev then
        match matchKlAt (c :: cs) with
        | some n =>
            removeKlAux fuel ((c :: cs).take n).getLast? ((c :: cs).drop n)
        | none => c :: removeKlAux fuel (some c) cs
      else c :: removeKlAux fuel (some c) cs

def removeKl (l : List Char) : List Char := removeKlAux (l.length + 1) none l

/-- The `.`/`-`/`,` unification applied to `s_clean`. -/
def sepUnify (c : Char) : Char :=
  if c = '.' then '/' else if c = '-' then '/' else if c = ',' then ' ' else c

/-- Anchored `^(\d{4})[/\-](\d{1,2})[/\-](\d{1,2})$`. -/
def matchIsoToken (l : List Char) : Option (Nat × Nat × Nat) :=
  let sep : Char → Bool := fun c => c = '/' || c = '-'
  let (r1, s1) := digitSpan l
  if r1.length = 4 then
    match s1 with
    | c1 :: s2 =>
        if sep c1 then
          let (r2, s3) := digitSpan s2
          if 1 ≤ r2.length && r2.length ≤ 2 then
            match s3 with
            | c2 :: s4 =>
                if sep c2 then
                  let (r3, s5) := digitSpan s4
                  if 1 ≤ r3.length && r3.length ≤ 2 && s5.isEmpty then
                    some (natOfDigits r1, natOfDigits r2, natOfDigits r3)
                  else none
                else none
            | [] => none
          else none
        else none
    | [] => none
  else none

/-- Anchored `^(\d{1,2})/(\d{1,2})(?:/(\d{2,4}))?$`, giving (day, month,
optional year). -/
def matchDMY (l : List Char) : Option (Nat × Nat × Option Nat) :=
  let (d, r1) := digitSpan l
  if 1 ≤ d.length && d.length ≤ 2 then
    match r1 with
    | '/' :: r2 =>
        let (m, r3) := digitSpan r2
        if 1 ≤ m.length && m.length ≤ 2 then
          match r3 with
          | [] => some (natOfDigits d, natOfDigits m, none)
          | '/' :: r4 =>
              let (y, r5) := digitSpan r4
              if 2 ≤ y.length && y.length ≤ 4 && r5.isEmpty then
                some (natOfDigits d, natOfDigits m, some (natOfDigits y))
              else none
          | _ => none
        else none
    | _ => none
  else none

/-- `if yr < 100: yr += 2000` — two-digit (by value) years land in 20xx. -/
def fixYear (y : Nat) : Nat := if y < 100 then y + 2000 else y

/-- The character class `[a-zåäö\.]` of the textual-month token. -/
def monthClassC (c : Char) : Bool :=
  ('a' ≤ c && c ≤ 'z') || c = 'å' || c = 'ä' || c = 'ö' || c = '.'

/-- Anchored `^(\d{1,2})\s+([a-zåäö\.]+)(?:\s+(\d{2,4}))?$`, giving
(day, raw month token, optional year). -/
def matchTextMonth (l : List Char) : Option (Nat × List Char × Option Nat) :=
  let (d, r1) := digitSpan l
  if 1 ≤ d.length && d.length ≤ 2 then
    let ws := r1.takeWhile pyWs
    if ws.isEmpty then none
    else
      let r2 := r1.drop ws.length
      let tok := r2.takeWhile monthClassC
      if tok.isEmpty then none
      else
        let r3 := r2.drop tok.length
        match r3 with
        | [] => some (natOfDigits d, tok, none)
        | _ =>
            let ws2 := r3.takeWhile pyWs
            if ws2.isEmpty then none
            else
              let r4 := r3.drop ws2.length
              let (y, r5) := digitSpan r4
              if 2 ≤ y.length && y.length ≤ 4 && r5.isEmpty then
                some (natOfDigits d, tok, some (natOfDigits y))
              else none
  else none

/-- `(l.reverse.dropWhile (· = '.')).reverse` is Python `rstrip(".")`. -/
def rstripDots (l : List Char) : List Char := (l.reverse.dropWhile (fun c => c = '.')).reverse

/-- The month-name resolution of the textual-month branch: first pass over
`_MONTHS` comparing the key or its 3-char prefix text, second pass with
`ä`/`ö` flattened comparing by `startswith`. -/
def resolveMonth (tok : List Char) : Option Nat :=
  let mk := rstripDots tok
  let mkS : String := ⟨mk⟩
  let short : String := ⟨mk.take 3⟩
  match MONTHS.find? (fun kv => mkS == kv.1 || short == (⟨kv.1.data.take 3⟩ : String)) with
  | some kv => some kv.2
  | none =>
      let mk2 : List Char := mk.map (fun c => if c = 'ä' then 'a' else if c = 'ö' then 'o' else c)
      match MONTHS.find? (fun kv => startsWithL (kv.1.data.take 3) mk2) with
      | some kv => some kv.2
      | none => none

/-- At a scan position: `(\d{1,2})\D+(\d{1,2})` anchored here.  A digit run of
3+ fails at this position for every split of the first group; otherwise the
first group is the whole run, `\D+` is the following maximal non-digit run
(must be non-empty), and the second group is up to two digits of the next
run. -/
def grabTwoAt (l : List Char) : Option (Nat × Nat) :=
  match l with
  | [] => none
  | c :: _ =>
      if isDigitC c then
        let (run, rest) := digitSpan l
        if 3 ≤ run.length then none
        else
          match rest with
          | [] => none
          | _ =>
              let nd := rest.takeWhile (fun c => !isDigitC c)
              let r2 := rest.drop nd.length
              match r2 with
              | [] => none
              | _ =>
                  let (g2, _) := digitSpan r2
                  some (natOfDigits run, natOfDigits (g2.take 2))
      else none

/-- `re.search(r"(\d{1,2})\D+(\d{1,2})", l)`: leftmost position at which
`grabTwoAt` succeeds. -/
def searchTwoNums : List Char → Option (Nat × Nat)
  | [] => none
  | c :: cs =>
      match grabTwoAt (c :: cs) with
      | some r => some r
      | none => searchTwoNums cs

/-- `normalize_date_token` from scrapebensinstation.py: relative-word
containment checks, then over the cleaned token the ISO, `dd/mm(/yy)`,
`day month-name (year)` and loose two-number grammars in order, each
validated through the `datetime(...)` constructor (`mkValidIso`). -/
def normalize_date_token (today : SDate) (raw : String) : Option String :=
  let s := pyStrip raw.data
  if s.isEmpty then none
  else
    let low := pyStrip ((lowerL s).map (fun c => if c = '\xa0' then ' ' else c))
    let lowNd := low.map nodiacC
    if containsSub "idag".data lowNd || containsSub "today".data lowNd then
      some (isoformat today)
    else if containsSub "igår".data lowNd || containsSub "igar".data lowNd ||
        containsSub "yesterday".data lowNd then
      some (isoformat (predDate today))
    else if containsSub "förrgår".data low || containsSub "forrgor".data low ||
        containsSub "i förrgår".data low || containsSub "i forrgor".data low ||
        containsSub "i forrgår".data low || containsSub "i forrgar".data low then
      some (isoformat (predDate (predDate today)))
    else if containsSub "förrgår".data lowNd || containsSub "forrgor".data lowNd then
      some (isoformat (predDate (predDate today)))
    else if hasBforr lowNd then
      some (isoformat (predDate (predDate today)))
    else
      let s1 := pyStrip (stripDatumPfx low)
      let s2 := pyStrip (removeKl s1)
      let s3 := pyStrip (s2.map sepUnify)
      let isoA : Option String :=
        match matchIsoToken s3 with
        | some (y, mo, d) => mkValidIso y mo d
        | none => none
      match isoA with
      | some r => some r
      | none =>
          let dmA : Option String :=
            match matchDMY s3 with
            | some (d, m, oy) =>
                let yr := match oy with
                  | some y => fixYear y
                  | none => inferYear today m d
                mkValidIso yr m d
            | none => none
          match dmA with
          | some r => some r
          | none =>
              let txA : Option String :=
                match matchTextMonth s3 with
                | some (d, tok, oy) =>
                    match resolveMonth tok with
                    | some mn =>
                        let yr := match oy with
                          | some y => fixYear y
                          | none => inferYear today mn d
                        mkValidIso yr mn d
                    | none => none
                | none => none
              match txA with
              | some r => some r
              | none =>
                  match searchTwoNums s3 with
                  | some (d, m) => mkValidIso (inferYear today m d) m d
                  | none => none

/-! ## scrapebensinstation.py: save/append pipeline -/

/-- A scraped row `[Bolag, Bensinpris, Dieselpris, Etanol, Datum]`. -/
structure BRow where
  bolag : String
  bensinpris : String
  dieselpris : String
  etanol : String
  datum : String
deriving DecidableEq, Repr

/-- A persisted CSV row (`DESIRED_COLS` order). -/
structure SRow where
  bolag : String
  bensinpris : String
  dieselpris : String
  etanol : String
  datum : String
  scrapeDate : String
deriving DecidableEq, Repr

abbrev BKey := String × String × String × String

/-- `make_key` from scrapebensinstation.py: textual match on stripped
Bolag, Bensinpris, Dieselpris, Datum — the Etanol column is not part of it. -/
def make_key (bolag bensinpris dieselpris datum : String) : BKey :=
  (pyStripS bolag, pyStripS bensinpris, pyStripS dieselpris, pyStripS datum)

/-- `re.match(r"^\d{4}-\d{2}-\d{2}$", datum)` as a Bool. -/
def isoShaped2 (s : String) : Bool :=
  let (a, r1) := digitSpan s.data
  if a.length = 4 then
    match r1 with
    | '-' :: r2 =>
        let (b, r3) := digitSpan r2
        if b.length = 2 then
          match r3 with
          | '-' :: r4 =>
              let (c, r5) := digitSpan r4
              c.length = 2 && r5.isEmpty
          | _ => false
        else false
    | _ => false
  else false

/-- The `datum_iso` computation of `save_rows_scraped`: keep an already-ISO
datum; otherwise normalize, and if normalization fails (`None`, the only
falsy value it can produce) fall back to the raw stripped token. -/
def fixDatum (today : SDate) (datum : String) : String :=
  if isoShaped2 datum then datum
  else
    match normalize_date_token today datum with
    | some p => p
    | none => pyStripS datum

/-- Mutable state of the `save_rows_scraped` loop: the growing key set
(existing keys plus keys registered for accepted rows), rows to append, and
the counters. -/
structure SaveState where
  keys : List BKey
  toAdd : List SRow
  skipped : Nat
  scrapedTotal : Nat
deriving DecidableEq, Repr

/-- One iteration of the `for row in scraped_rows` loop of
`save_rows_scraped`. -/
def stepSave (today : SDate) (st : SaveState) (row : BRow) : SaveState :=
  let datumIso := fixDatum today row.datum
  let key := make_key row.bolag row.bensinpris row.dieselpris datumIso
  if key ∈ st.keys then
    { st with skipped := st.skipped + 1, scrapedTotal := st.scrapedTotal + 1 }
  else
    { st with
      toAdd := st.toAdd ++
        [⟨row.bolag, row.bensinpris, row.dieselpris, row.etanol, datumIso, isoformat today⟩],
      keys := key :: st.keys,
      scrapedTotal := st.scrapedTotal + 1 }

/-- The key of a persisted row as the CSV-loading loop recomputes it. -/
def storedBKey (r : SRow) : BKey := make_key r.bolag r.bensinpris r.dieselpris r.datum

/-- `save_rows_scraped`: build the existing key set from the store, run the
loop, and append the new rows (never touching the old ones); when nothing was
accepted the store is left as it was.  Returns the final loop state and the
new store contents. -/
def save_rows_scraped (today : SDate) (store : List SRow) (rows : List BRow) :
    SaveState × List SRow :=
  let st := rows.foldl (stepSave today) ⟨store.map storedBKey, [], 0, 0⟩
  (st, if 0 < st.toAdd.length then store ++ st.toAdd else store)

/-! ## scrapebensinpriser.py: scrape and main dedup/cap/merge pipeline -/

/-- A normalized bensinpriser record (`COLS_ORDER` fields); also the shape of
a persisted CSV row (the CSV text round-trip of each field is modelled as
exact). -/
structure PRow where
  station : String
  price : ℚ
  date : String
  fuel : String
  scrapeDate : String
  source : String
deriving DecidableEq, Repr

/-- `normalize_date_str(r.get("Date")) or r.get("Date")` at store-load time
(`normalize_date_str` never returns the empty string, so Python `or` falls
through exactly on `None`). -/
def loadDate (today : SDate) (d : String) : String :=
  match normalize_date_str today d with
  | some x => x
  | none => d

/-- The identity key the store-loading loop of `main` computes for a
persisted row. -/
def loadKey (today : SDate) (r : PRow) : PKey :=
  make_key_norm r.station (some r.price) (loadDate today r.date) (normalize_fuel r.fuel)

/-- The (fuel, date) pair a persisted row contributes to `counts_per_fd`. -/
def loadFD (today : SDate) (r : PRow) : String × String :=
  (normalize_fuel r.fuel, loadDate today r.date)

/-- Mutable state of the dedup/cap loop of `main`: per-run accepted key set,
one list entry per accepted record's fuel (so `List.count` is
`pending_counts_by_fuel.get(f, 0)`), rows to append and the counters. -/
structure MainState where
  pendingKeys : List PKey
  pendingFuels : List String
  toAppend : List PRow
  added : Nat
  skippedDup : Nat
  skippedCap : Nat
  skippedPrice : Nat
deriving DecidableEq, Repr

def initMain : MainState := ⟨[], [], [], 0, 0, 0, 0⟩

/-- One iteration of the `for r in candidates` loop of `main`: duplicate
check (existing ∪ pending), then price bounds, then the strict cap test
`existing_count (per fuel+date) + pending_count (per fuel) < cap`, else
accept. -/
def stepMain (existingKeys : List PKey) (storeFD : List (String × String))
    (st : MainState) (r : PRow) : MainState :=
  let fuelNorm := normalize_fuel r.fuel
  let dateIso := r.date
  let priceVal := r.price
  let key := make_key_norm r.station (some priceVal) dateIso fuelNorm
  if key ∈ existingKeys ∨ key ∈ st.pendingKeys then
    { st with skippedDup := st.skippedDup + 1 }
  else if priceOutOfBounds fuelNorm priceVal then
    { st with skippedPrice := st.skippedPrice + 1 }
  else
    let existingCount := storeFD.count (fuelNorm, dateIso)
    let pendingCount := st.pendingFuels.count fuelNorm
    let accept : MainState :=
      { st with
        pendingKeys := key :: st.pendingKeys,
        pendingFuels := fuelNorm :: st.pendingFuels,
        toAppend := st.toAppend ++
          [⟨r.station, priceVal, dateIso, fuelNorm, r.scrapeDate, r.source⟩],
        added := st.added + 1 }
    match ROW_LIMITS fuelNorm with
    | some cap => if cap ≤ existingCount + pendingCount then
        { st with skippedCap := st.skippedCap + 1 }
      else accept
    | none => accept

/-- The dedup/cap/merge portion of `main` (lines 174–261): load the existing
key set and per-(fuel, date) counts from the store, fold the loop over the
candidates, and append the accepted rows (`df_old` is left untouched when
nothing was accepted).  Returns the final loop state and the new store. -/
def mainRun (today : SDate) (store : List PRow) (candidates : List PRow) :
    MainState × List PRow :=
  let existingKeys := store.map (loadKey today)
  let storeFD := store.map (loadFD today)
  let st := candidates.foldl (stepMain existingKeys storeFD) initMain
  (st, if st.toAppend.isEmpty then store else store ++ st.toAppend)

/-- The extractor's view of one `<tr class="table-row">`: the stripped text
of each cell, plus — for the price cell `tds[1]` — the text of its first
nested `<small>` (if any) and the cell text after that `<small>` was
extracted.  The HTML query collaborator is abstracted at exactly this
boundary. -/
structure RawTr where
  tds : List String
  priceSmall : Option String
  priceText : String
deriving DecidableEq, Repr

/-- The per-row body of `scrape_one_url`: membership/promotional exclusion
on the station text, date from the `<small>` tag via `normalize_date_str`,
price via `parse_number`, both required, then the MIN/MAX bounds check for
the normalized fuel. -/
def scrapeRow (today : SDate) (fuelKey : String) (tr : RawTr) : Option PRow :=
  match tr.tds with
  | [] => none
  | station :: rest =>
      let sLow := lowerS station
      if containsS "costco" sLow || containsS "medlemsskap krävs" sLow ||
          containsS "medlemskap krævs" sLow || containsS "medlemskap krävs" sLow ||
          startsWithS "tips" sLow then
        none
      else
        let pv : Option ℚ := if rest.isEmpty then none else parse_number tr.priceText
        let di : Option String :=
          if rest.isEmpty then none
          else tr.priceSmall.bind (fun rawDate => normalize_date_str today rawDate)
        match pv, di with
        | some priceVal, some dateIso =>
            let fk := normalize_fuel fuelKey
            if priceOutOfBounds fk priceVal then none
            else some ⟨station, priceVal, dateIso, fk, isoformat today, "bensinpriser.nu"⟩
        | _, _ => none

/-- `scrape_one_url` over the extracted rows of one fuel page. -/
def scrape_one_url (today : SDate) (fuelKey : String) (trs : List RawTr) : List PRow :=
  trs.filterMap (scrapeRow today fuelKey)

/-! ## Basic lemmas about the string toolkit -/

theorem dropWhile_idem (p : Char → Bool) (l : List Char) :
    (l.dropWhile p).dropWhile p = l.dropWhile p := by
  induction l with
  | nil => rfl
  | cons c cs ih =>
      by_cases h : p c
      · simp [List.dropWhile_cons, h, ih]
      · simp [List.dropWhile_cons, h]

theorem pyStrip_idem (l : List Char) : pyStrip (pyStrip l) = pyStrip l := by
  unfold pyStrip
  set A := l.dropWhile pyWs with hA
  have hAhead : A.dropWhile pyWs = A := dropWhile_idem pyWs l
  -- the right-stripped A is a prefix of A, so its head also fails pyWs
  have hpre : ((A.reverse.dropWhile pyWs).reverse) <+: A := by
    have hsu : A.reverse.dropWhile pyWs <:+ A.reverse := List.dropWhile_suffix pyWs
    have := List.reverse_prefix.mpr (by simpa using hsu)
    simpa using this
  have hdropB : ((A.reverse.dropWhile pyWs).reverse).dropWhile pyWs
      = (A.reverse.dropWhile pyWs).reverse := by
    rcases hB : (A.reverse.dropWhile pyWs).reverse with _ | ⟨c, cs⟩
    · rfl
    · -- head of the prefix is the head of A, which fails pyWs
      rcases hpre' : A with _ | ⟨a, as⟩
      · rw [hpre'] at hB
        simp at hB
      · have hc : a = c := by
          rw [hB, hpre'] at hpre
          rcases hpre with ⟨t, ht⟩
          simpa using congrArg (fun l => l.head?) ht.symm
        have hpa : pyWs a = false := by
          have h2 := hAhead
          rw [hpre'] at h2
          by_contra hcon
          have hpa' : pyWs a = true := by
            revert hcon
            cases pyWs a <;> simp
          rw [List.dropWhile_cons, hpa'] at h2
          simp at h2
          have h3 : (a :: as).length ≤ as.length := by
            conv_lhs => rw [← h2]
            exact (List.dropWhile_sublist _).length_le
          simp at h3
        rw [List.dropWhile_cons, ← hc, hpa]
        simp
  rw [hdropB]
  have : ((A.reverse.dropWhile pyWs).reverse).reverse.dropWhile pyWs
      = A.reverse.dropWhile pyWs := by
    rw [List.reverse_reverse]
    exact dropWhile_idem pyWs A.reverse
  rw [this]

theorem pyStripS_idem (s : String) : pyStripS (pyStripS s) = pyStripS s := by
  unfold pyStripS
  exact congrArg String.mk (pyStrip_idem s.data)

theorem normalize_fuel_idem (f : String) :
    normalize_fuel (normalize_fuel f) = normalize_fuel f := by
  unfold normalize_fuel
  rcases hf : FUEL_KEYS.find? (fun k => lowerS (pyStripS f) = lowerS k) with _ | k
  · simp only
    by_cases h95 : containsS "95" (lowerS (pyStripS f)) = true
    · simp [hf, h95]
      decide
    · by_cases h98 : containsS "98" (lowerS (pyStripS f)) = true
      · simp [hf, h95, h98]
        decide
      · by_cases hdi : containsS "diesel" (lowerS (pyStripS f)) = true
        · simp [hf, h95, h98, hdi]
          decide
        · by_cases het : containsS "etanol" (lowerS (pyStripS f)) = true
          · simp [hf, h95, h98, hdi, het]
            decide
          · simp only [hf, Bool.not_eq_true] at h95 h98 hdi het ⊢
            simp only [h95, h98, hdi, het, Bool.false_eq_true, if_false]
            have hstr : pyStripS (pyStripS f) = pyStripS f := pyStripS_idem f
            rw [hstr, hf]
            simp only [h95, h98, hdi, het, Bool.false_eq_true, if_false]
  · have hk : k ∈ FUEL_KEYS := List.mem_of_find?_eq_some hf
    simp only [hf]
    simp only [FUEL_KEYS, List.mem_cons, List.mem_singleton] at hk
    rcases hk with rfl | rfl | rfl | rfl | h
    · decide
    · decide
    · decide
    · decide
    · simp at h

theorem merge_is_append {α : Type} (st : List α) (ta : List α) :
    (if ta.isEmpty then st else st ++ ta) = st ++ ta := by
  by_cases h : ta.isEmpty
  · rw [if_pos h, List.isEmpty_iff.mp h, List.append_nil]
  · rw [if_neg h]

/-- C1: the store is append-only.  For both pipelines, the snapshot written
at the end of a run is exactly the previously persisted snapshot with the
run's accepted rows appended after it; in particular every previously
persisted row is still present, unchanged and at its original position
(`take` of the old length reproduces the old store verbatim). -/
theorem claim_C1_append_only (today : SDate) (pstore cands : List PRow)
    (bstore : List SRow) (rows : List BRow) :
    (mainRun today pstore cands).2 = pstore ++ (mainRun today pstore cands).1.toAppend ∧
    (mainRun today pstore cands).2.take pstore.length = pstore ∧
    (save_rows_scraped today bstore rows).2
      = bstore ++ (save_rows_scraped today bstore rows).1.toAdd ∧
    (save_rows_scraped today bstore rows).2.take bstore.length = bstore := by
  have h1 : (mainRun today pstore cands).2
      = pstore ++ (mainRun today pstore cands).1.toAppend := by
    simp only [mainRun]
    exact merge_is_append _ _
  have h2 : (save_rows_scraped today bstore rows).2
      = bstore ++ (save_rows_scraped today bstore rows).1.toAdd := by
    simp only [save_rows_scraped]
    have := merge_is_append bstore
      ((rows.foldl (stepSave today) ⟨bstore.map storedBKey, [], 0, 0⟩).toAdd)
    by_cases h : 0 < (rows.foldl (stepSave today) ⟨bstore.map storedBKey, [], 0, 0⟩).toAdd.length
    · rw [if_pos h]
    · rw [if_neg h]
      have hnil : (rows.foldl (stepSave today) ⟨bstore.map storedBKey, [], 0, 0⟩).toAdd = [] := by
        rcases hx : (rows.foldl (stepSave today) ⟨bstore.map storedBKey, [], 0, 0⟩).toAdd with _ | ⟨a, as⟩
        · rfl
        · rw [hx] at h
          simp at h
      rw [hnil, List.append_nil]
  refine ⟨h1, ?_, h2, ?_⟩
  · rw [h1]
    exact List.take_left _ _
  · rw [h2]
    exact List.take_left _ _

/-- Witness for C1 at a concrete input. -/
theorem claim_C1_append_only_witness :
    (mainRun ⟨2025, 1, 10⟩ [⟨"s", 15, "2025-01-02", "98", "2025-01-01", "x"⟩] []).2
        = [⟨"s", 15, "2025-01-02", "98", "2025-01-01", "x"⟩] ++
          (mainRun ⟨2025, 1, 10⟩ [⟨"s", 15, "2025-01-02", "98", "2025-01-01", "x"⟩] []).1.toAppend ∧
      (mainRun ⟨2025, 1, 10⟩ [⟨"s", 15, "2025-01-02", "98", "2025-01-01", "x"⟩] []).2.take 1
        = [⟨"s", 15, "2025-01-02", "98", "2025-01-01", "x"⟩] := by
  have h := claim_C1_append_only ⟨2025, 1, 10⟩
    [⟨"s", 15, "2025-01-02", "98", "2025-01-01", "x"⟩] [] [] []
  exact ⟨h.1, h.2.1⟩

/-- C3 counterexample: a candidate whose price (100) is far outside the `98`
bounds `[14, 30]` and whose identity key is already persisted is counted as a
duplicate (`skipped_dup = 1`, `skipped_price = 0`) — not as out-of-bounds as
the claim states: the duplicate check runs first in `main`. -/
theorem claim_C3_counterexample :
    priceOutOfBounds (normalize_fuel "98") 100 = true ∧
    (mainRun ⟨2025, 1, 10⟩ [⟨"s", 100, "2025-01-02", "98", "2025-01-01", "x"⟩]
        [⟨"s", 100, "2025-01-02", "98", "2025-01-01", "x"⟩]).1.skippedPrice = 0 ∧
    (mainRun ⟨2025, 1, 10⟩ [⟨"s", 100, "2025-01-02", "98", "2025-01-01", "x"⟩]
        [⟨"s", 100, "2025-01-02", "98", "2025-01-01", "x"⟩]).1.skippedDup = 1 := by
  refine ⟨by decide, by decide, by decide⟩

/-- C3 (amended): in the dedup loop of `main` the duplicate check precedes
the out-of-bounds check: a candidate whose identity key is already present in
the persisted or run-accepted key set is rejected as a duplicate even when
its price is out of bounds, and the out-of-bounds classification applies
exactly to non-duplicate candidates with an out-of-range price. -/
theorem claim_C3_dup_before_bounds (ek : List PKey) (fd : List (String × String))
    (st : MainState) (r : PRow) :
    (make_key_norm r.station (some r.price) r.date (normalize_fuel r.fuel) ∈ ek ∨
        make_key_norm r.station (some r.price) r.date (normalize_fuel r.fuel) ∈ st.pendingKeys →
      stepMain ek fd st r = { st with skippedDup := st.skippedDup + 1 }) ∧
    (¬(make_key_norm r.station (some r.price) r.date (normalize_fuel r.fuel) ∈ ek ∨
        make_key_norm r.station (some r.price) r.date (normalize_fuel r.fuel) ∈ st.pendingKeys) →
      priceOutOfBounds (normalize_fuel r.fuel) r.price = true →
      stepMain ek fd st r = { st with skippedPrice := st.skippedPrice + 1 }) := by
  constructor
  · intro h
    simp only [stepMain]
    rw [if_pos h]
  · intro h hp
    simp only [stepMain]
    rw [if_neg h, if_pos hp]

/-- Witness for C3's amended theorem at concrete inputs. -/
theorem claim_C3_dup_before_bounds_witness :
    (make_key_norm "s" (some 100) "2025-01-02" (normalize_fuel "98")
        ∈ [make_key_norm "s" (some 100) "2025-01-02" "98"] ∨
      make_key_norm "s" (some 100) "2025-01-02" (normalize_fuel "98")
        ∈ ([] : List PKey)) ∧
    stepMain [make_key_norm "s" (some 100) "2025-01-02" "98"] [] initMain
        ⟨"s", 100, "2025-01-02", "98", "d", "x"⟩
      = { initMain with skippedDup := 1 } ∧
    priceOutOfBounds (normalize_fuel "98") 100 = true ∧
    stepMain [] [] initMain ⟨"s", 100, "2025-01-02", "98", "d", "x"⟩
      = { initMain with skippedPrice := 1 } := by
  have hmem : make_key_norm "s" (some (100 : ℚ)) "2025-01-02" (normalize_fuel "98")
      ∈ [make_key_norm "s" (some (100 : ℚ)) "2025-01-02" "98"] ∨
      make_key_norm "s" (some (100 : ℚ)) "2025-01-02" (normalize_fuel "98")
      ∈ ([] : List PKey) := by decide
  have h1 := (claim_C3_dup_before_bounds [make_key_norm "s" (some 100) "2025-01-02" "98"] []
    initMain ⟨"s", 100, "2025-01-02", "98", "d", "x"⟩).1 hmem
  have h2 := (claim_C3_dup_before_bounds [] [] initMain
    ⟨"s", 100, "2025-01-02", "98", "d", "x"⟩).2 (by decide) (by decide)
  exact ⟨hmem, h1, by decide, h2⟩

theorem pyWs_not_keep (c : Char) (h : pyWs c = true) : keepNumC c = false := by
  simp only [pyWs, Bool.or_eq_true, decide_eq_true_eq] at h
  rcases h with (((((h | h) | h) | h) | h) | h) | h <;> subst h <;> decide

theorem filter_keep_dropWhile (x : List Char) :
    (x.dropWhile pyWs).filter keepNumC = x.filter keepNumC := by
  conv_rhs => rw [← List.takeWhile_append_dropWhile (p := pyWs) (l := x)]
  rw [List.filter_append]
  have h : (x.takeWhile pyWs).filter keepNumC = [] := by
    rw [List.filter_eq_nil_iff]
    intro a ha
    have := List.mem_takeWhile_imp ha
    simp [pyWs_not_keep a this]
  rw [h, List.nil_append]

theorem filter_keep_pyStrip (x : List Char) :
    (pyStrip x).filter keepNumC = x.filter keepNumC := by
  unfold pyStrip
  rw [List.filter_reverse, filter_keep_dropWhile, List.filter_reverse, List.reverse_reverse,
    filter_keep_dropWhile]

theorem dropWhile_snoc_ne_nil (c : Char) (hc : pyWs c = false) (y : List Char) :
    (y ++ [c]).dropWhile pyWs ≠ [] := by
  induction y with
  | nil => simp [List.dropWhile_cons, hc]
  | cons a ys ih =>
      by_cases ha : pyWs a
      · simpa [List.dropWhile_cons, ha] using ih
      · simp [List.dropWhile_cons, ha]

theorem pyStrip_cons_ne_nil (c : Char) (hc : pyWs c = false) (x : List Char) :
    pyStrip (c :: x) ≠ [] := by
  unfold pyStrip
  rw [List.dropWhile_cons, if_neg (by simp [hc])]
  intro h
  have h2 : ((c :: x).reverse).dropWhile pyWs = [] := by
    have := congrArg List.reverse h
    simpa using this
  rw [List.reverse_cons] at h2
  exact dropWhile_snoc_ne_nil c hc x.reverse h2

theorem parse_number_eq_of_filter (s t : String)
    (h : s.data.filter keepNumC = t.data.filter keepNumC) :
    (pyStrip s.data ≠ [] → pyStrip t.data ≠ [] → parse_number s = parse_number t) := by
  intro hs ht
  simp only [parse_number]
  rw [if_neg (by simpa [List.isEmpty_iff] using hs), if_neg (by simpa [List.isEmpty_iff] using ht)]
  rw [filter_keep_pyStrip, filter_keep_pyStrip, h]

/-- C7: the price normalizer keeps only digits, commas, dots and minus signs
(prepending any other character to the input leaves the result unchanged),
turns a comma-with-no-dot into the decimal dot, and returns an explicit
`none` — not zero, and no exception (the function is total) — on parse
failure; `"14,71kr" ↦ 14.71`, `"1 234,56" ↦ 1234.56`, `"abc" ↦ none`. -/
theorem claim_C7_parse_number :
    (∀ (c : Char) (s : String), keepNumC c = false →
      parse_number ⟨c :: s.data⟩ = parse_number s) ∧
    parse_number "14,71kr" = some (14.71 : ℚ) ∧
    parse_number "1 234,56" = some (1234.56 : ℚ) ∧
    parse_number "abc" = none := by
  refine ⟨?_, ?_, ?_, ?_⟩
  · intro c s hc
    by_cases hws : pyWs c = true
    · -- a stripped-away whitespace head: both sides strip to the same list
      show parse_number ⟨c :: s.data⟩ = parse_number s
      simp only [parse_number]
      have : pyStrip (c :: s.data) = pyStrip s.data := by
        unfold pyStrip
        rw [List.dropWhile_cons, if_pos (by simp [hws])]
      rw [this]
    · -- a filtered-away head: the cleaned strings coincide
      have hws' : pyWs c = false := by
        revert hws
        cases pyWs c <;> simp
      have hfil : (c :: s.data).filter keepNumC = s.data.filter keepNumC := by
        simp [List.filter_cons, hc]
      by_cases hst : pyStrip s.data = []
      · -- the shorter input strips to nothing: its filter is empty too
        have hfe : s.data.filter keepNumC = [] := by
          rw [← filter_keep_pyStrip, hst]
          rfl
        simp only [parse_number]
        rw [if_neg (by simpa [List.isEmpty_iff] using pyStrip_cons_ne_nil c hws' s.data),
          if_pos (by simpa [List.isEmpty_iff] using hst)]
        rw [filter_keep_pyStrip, hfil, hfe]
        decide
      · exact parse_number_eq_of_filter ⟨c :: s.data⟩ s (by simpa using hfil)
          (pyStrip_cons_ne_nil c hws' s.data) hst
  · have h : parse_number "14,71kr" = some (mkRat 1471 100) := by decide
    have e : (mkRat 1471 100 : ℚ) = 14.71 := by norm_num
    rw [h, e]
  · have h : parse_number "1 234,56" = some (mkRat 123456 100) := by decide
    have e : (mkRat 123456 100 : ℚ) = 1234.56 := by norm_num
    rw [h, e]
  · decide

/-- Witness for C7 at concrete inputs. -/
theorem claim_C7_parse_number_witness :
    keepNumC 'x' = false ∧ parse_number ⟨'x' :: "1".data⟩ = parse_number "1" := by
  exact ⟨by decide, claim_C7_parse_number.1 'x' "1" (by decide)⟩

/-- Structure of a successful `scrape_one_url` row: the date comes from a
successfully normalized `<small>` token, the price passed the bounds check
for the normalized fuel, and the record carries that normalized fuel. -/
theorem scrapeRow_some_structure (today : SDate) (fuelKey : String) (tr : RawTr) (r : PRow)
    (h : scrapeRow today fuelKey tr = some r) :
    (∃ raw, tr.priceSmall = some raw ∧ normalize_date_str today raw = some r.date) ∧
    priceOutOfBounds (normalize_fuel fuelKey) r.price = false ∧
    r.fuel = normalize_fuel fuelKey := by
  unfold scrapeRow at h
  rcases htds : tr.tds with _ | ⟨station, rest⟩ <;> rw [htds] at h
  · simp at h
  · dsimp only at h
    by_cases hex : (containsS "costco" (lowerS station) ||
        containsS "medlemsskap krävs" (lowerS station) ||
        containsS "medlemskap krævs" (lowerS station) ||
        containsS "medlemskap krävs" (lowerS station) ||
        startsWithS "tips" (lowerS station)) = true
    · rw [if_pos hex] at h
      simp at h
    · rw [if_neg hex] at h
      rcases hpv : (if rest.isEmpty = true then none else parse_number tr.priceText) with _ | priceVal <;>
        rcases hdi : (if rest.isEmpty = true then none
          else tr.priceSmall.bind fun rawDate => normalize_date_str today rawDate) with _ | dateIso <;>
        rw [hpv, hdi] at h
      · simp at h
      · simp at h
      · simp at h
      · dsimp only at h
        by_cases hb : priceOutOfBounds (normalize_fuel fuelKey) priceVal = true
        · rw [if_pos hb] at h
          simp at h
        · rw [if_neg hb] at h
          have hr : r = ⟨station, priceVal, dateIso, normalize_fuel fuelKey,
              isoformat today, "bensinpriser.nu"⟩ := by
            exact (Option.some.injEq _ _ ▸ h.symm)
          have hdi2 : tr.priceSmall.bind (fun rawDate => normalize_date_str today rawDate)
              = some dateIso := by
            by_cases he : rest.isEmpty = true
            · rw [if_pos he] at hdi
              simp at hdi
            · rw [if_neg he] at hdi
              exact hdi
          rcases Option.bind_eq_some.mp hdi2 with ⟨raw, hraw, hnorm⟩
          refine ⟨⟨raw, hraw, ?_⟩, ?_, ?_⟩
          · rw [hr]
            exact hnorm
          · rw [hr]
            simpa using hb
          · rw [hr]

/-- C4 counterexample: in the bensinstation pipeline a row whose date token
`"gibberish"` cannot be resolved is not rejected: it is appended to the store
with the raw token as its `Datum`, so a stored row carries a non-ISO date. -/
theorem claim_C4_counterexample :
    normalize_date_token ⟨2025, 1, 10⟩ "gibberish" = none ∧
    (save_rows_scraped ⟨2025, 1, 10⟩ [] [⟨"X", "15", "16", "E85", "gibberish"⟩]).2
      = [⟨"X", "15", "16", "E85", "gibberish", "2025-01-10"⟩] := by
  exact ⟨by decide, by decide⟩

/-- C4 (amended): in the bensinpriser pipeline a candidate whose raw date
token cannot be resolved is rejected and never emitted (every emitted record
carries a successfully normalized date).  In the bensinstation pipeline an
unresolvable date token does **not** cause rejection: the candidate keeps the
raw stripped token as its `Datum` and, when its key is new, is appended to
the store with that raw value. -/
theorem claim_C4_unresolvable_dates (today : SDate) :
    (∀ (fuelKey : String) (tr : RawTr) (r : PRow), scrapeRow today fuelKey tr = some r →
      ∃ raw, tr.priceSmall = some raw ∧ normalize_date_str today raw = some r.date) ∧
    (∀ (st : SaveState) (row : BRow), isoShaped2 row.datum = false →
      normalize_date_token today row.datum = none →
      fixDatum today row.datum = pyStripS row.datum ∧
      (make_key row.bolag row.bensinpris row.dieselpris (pyStripS row.datum) ∉ st.keys →
        (stepSave today st row).toAdd = st.toAdd ++
          [⟨row.bolag, row.bensinpris, row.dieselpris, row.etanol, pyStripS row.datum,
            isoformat today⟩])) := by
  constructor
  · intro fuelKey tr r h
    exact (scrapeRow_some_structure today fuelKey tr r h).1
  · intro st row hshape hnorm
    have hfix : fixDatum today row.datum = pyStripS row.datum := by
      unfold fixDatum
      rw [if_neg (by simp [hshape]), hnorm]
    refine ⟨hfix, ?_⟩
    intro hkey
    unfold stepSave
    rw [hfix, if_neg hkey]

/-- Witness for C4's amended theorem at concrete inputs. -/
theorem claim_C4_unresolvable_dates_witness :
    normalize_date_str ⟨2025, 1, 10⟩ "15/9" = some "2024-09-15" ∧
    fixDatum ⟨2025, 1, 10⟩ "gibberish" = "gibberish" ∧
    (stepSave ⟨2025, 1, 10⟩ ⟨[], [], 0, 0⟩ ⟨"X", "15", "16", "E85", "gibberish"⟩).toAdd
      = [⟨"X", "15", "16", "E85", "gibberish", "2025-01-10"⟩] := by
  have h1 := (claim_C4_unresolvable_dates ⟨2025, 1, 10⟩).1 "98"
    ⟨["S", "p"], some "15/9", "14,71kr"⟩
    ⟨"S", mkRat 1471 100, "2024-09-15", "98", "2025-01-10", "bensinpriser.nu"⟩ (by decide)
  have h2 := (claim_C4_unresolvable_dates ⟨2025, 1, 10⟩).2 ⟨[], [], 0, 0⟩
    ⟨"X", "15", "16", "E85", "gibberish"⟩ (by decide) (by decide)
  refine ⟨?_, ?_, ?_⟩
  · rcases h1 with ⟨raw, hraw, hnorm⟩
    have : raw = "15/9" := by
      simpa using hraw.symm
    rw [this] at hnorm
    simpa using hnorm
  · simpa using h2.1
  · have := h2.2 (by decide)
    simpa using this

/-- The key `save_rows_scraped` computes for a scraped row. -/
def bkeyOf (today : SDate) (row : BRow) : BKey :=
  make_key row.bolag row.bensinpris row.dieselpris (fixDatum today row.datum)

theorem stepSave_keys_sub (today : SDate) (st : SaveState) (row : BRow) (k : BKey)
    (h : k ∈ st.keys) : k ∈ (stepSave today st row).keys := by
  unfold stepSave
  by_cases hmem : make_key row.bolag row.bensinpris row.dieselpris (fixDatum today row.datum)
      ∈ st.keys
  · rw [if_pos hmem]
    exact h
  · rw [if_neg hmem]
    exact List.mem_cons_of_mem _ h

theorem foldl_stepSave_keys_sub (today : SDate) (l : List BRow) (st : SaveState) (k : BKey)
    (h : k ∈ st.keys) : k ∈ (l.foldl (stepSave today) st).keys := by
  induction l generalizing st with
  | nil => exact h
  | cons r rs ih => exact ih _ (stepSave_keys_sub today st r k h)

theorem stepSave_key_mem (today : SDate) (st : SaveState) (row : BRow) :
    bkeyOf today row ∈ (stepSave today st row).keys := by
  unfold stepSave bkeyOf
  by_cases hmem : make_key row.bolag row.bensinpris row.dieselpris (fixDatum today row.datum)
      ∈ st.keys
  · rw [if_pos hmem]
    exact hmem
  · rw [if_neg hmem]
    exact List.mem_cons_self _ _

/-- The duplicate branch of the save loop bumps only the two counters. -/
def bumpSkip (st : SaveState) : SaveState :=
  { st with skipped := st.skipped + 1, scrapedTotal := st.scrapedTotal + 1 }

theorem stepSave_skip_eq (today : SDate) (st : SaveState) (row : BRow)
    (h : bkeyOf today row ∈ st.keys) : stepSave today st row = bumpSkip st := by
  have h' : make_key row.bolag row.bensinpris row.dieselpris (fixDatum today row.datum)
      ∈ st.keys := h
  unfold stepSave bumpSkip
  dsimp only
  rw [if_pos h']

theorem stepSave_bumpSkip (today : SDate) (st : SaveState) (row : BRow) :
    stepSave today (bumpSkip st) row = bumpSkip (stepSave today st row) := by
  unfold stepSave bumpSkip
  by_cases hmem : make_key row.bolag row.bensinpris row.dieselpris (fixDatum today row.datum)
      ∈ st.keys
  · rw [if_pos hmem, if_pos hmem]
  · rw [if_neg hmem, if_neg hmem]

theorem foldl_stepSave_bumpSkip (today : SDate) (l : List BRow) (st : SaveState) :
    l.foldl (stepSave today) (bumpSkip st) = bumpSkip (l.foldl (stepSave today) st) := by
  induction l generalizing st with
  | nil => rfl
  | cons r rs ih => simp only [List.foldl_cons, stepSave_bumpSkip, ih]

/-- C10: the bensinstation duplicate key is (Bolag, Bensinpris, Dieselpris,
Datum) and excludes Etanol.  When a later scraped row agrees with an earlier
one on those four fields (its Etanol may differ arbitrarily), the later row
is skipped as a duplicate: the run's appended rows are exactly those of the
run without it (its Etanol value is never stored), its only effect is one
extra skip count, and the final store is unchanged. -/
theorem claim_C10_etanol_excluded (today : SDate) (store : List SRow)
    (l1 l2 l3 : List BRow) (r1 r2 : BRow)
    (hb : r1.bolag = r2.bolag) (hben : r1.bensinpris = r2.bensinpris)
    (hdie : r1.dieselpris = r2.dieselpris) (hdat : r1.datum = r2.datum) :
    (save_rows_scraped today store (l1 ++ [r1] ++ l2 ++ [r2] ++ l3)).1.toAdd
      = (save_rows_scraped today store (l1 ++ [r1] ++ l2 ++ l3)).1.toAdd ∧
    (save_rows_scraped today store (l1 ++ [r1] ++ l2 ++ [r2] ++ l3)).1.skipped
      = (save_rows_scraped today store (l1 ++ [r1] ++ l2 ++ l3)).1.skipped + 1 ∧
    (save_rows_scraped today store (l1 ++ [r1] ++ l2 ++ [r2] ++ l3)).2
      = (save_rows_scraped today store (l1 ++ [r1] ++ l2 ++ l3)).2 := by
  have hkey : bkeyOf today r2 = bkeyOf today r1 := by
    unfold bkeyOf
    rw [hb, hben, hdie, hdat]
  simp only [save_rows_scraped, List.foldl_append, List.foldl_cons, List.foldl_nil]
  set st1 := l1.foldl (stepSave today) ⟨store.map storedBKey, [], 0, 0⟩ with hst1
  set st3 := l2.foldl (stepSave today) (stepSave today st1 r1) with hst3
  have hk3 : bkeyOf today r2 ∈ st3.keys := by
    rw [hkey]
    exact foldl_stepSave_keys_sub today l2 _ _ (stepSave_key_mem today st1 r1)
  have hstep : stepSave today st3 r2 = bumpSkip st3 := stepSave_skip_eq today st3 r2 hk3
  rw [hstep, foldl_stepSave_bumpSkip]
  set stF := l3.foldl (stepSave today) st3 with hstF
  refine ⟨rfl, rfl, ?_⟩
  rfl

/-- Witness for C10 at concrete inputs. -/
theorem claim_C10_etanol_excluded_witness :
    (save_rows_scraped ⟨2025, 1, 10⟩ [] [⟨"B", "15", "16", "17", "2025-01-09"⟩,
        ⟨"B", "15", "16", "99", "2025-01-09"⟩]).1.toAdd
      = (save_rows_scraped ⟨2025, 1, 10⟩ [] [⟨"B", "15", "16", "17", "2025-01-09"⟩]).1.toAdd ∧
    (save_rows_scraped ⟨2025, 1, 10⟩ [] [⟨"B", "15", "16", "17", "2025-01-09"⟩,
        ⟨"B", "15", "16", "99", "2025-01-09"⟩]).1.skipped
      = (save_rows_scraped ⟨2025, 1, 10⟩ [] [⟨"B", "15", "16", "17", "2025-01-09"⟩]).1.skipped
        + 1 := by
  have h := claim_C10_etanol_excluded ⟨2025, 1, 10⟩ [] [] [] []
    ⟨"B", "15", "16", "17", "2025-01-09"⟩ ⟨"B", "15", "16", "99", "2025-01-09"⟩
    rfl rfl rfl rfl
  have h1 := h.1
  have h2 := h.2.1
  simp only [List.nil_append, List.append_nil] at h1 h2
  exact ⟨h1, h2⟩

/-- `stepMain` against an empty store, on a fresh in-bounds candidate of a
capped fuel: it either cap-rejects (when the per-fuel pending count has
reached the cap) or accepts. -/
theorem stepMain_empty_spec (st : MainState) (c : PRow) (F : String) (N : Nat)
    (hf : normalize_fuel c.fuel = F) (hF : ROW_LIMITS F = some N)
    (hnb : priceOutOfBounds F c.price = false)
    (hnk : make_key_norm c.station (some c.price) c.date F ∉ st.pendingKeys) :
    stepMain [] [] st c =
      if N ≤ st.pendingFuels.count F then { st with skippedCap := st.skippedCap + 1 }
      else { st with
        pendingKeys := make_key_norm c.station (some c.price) c.date F :: st.pendingKeys,
        pendingFuels := F :: st.pendingFuels,
        toAppend := st.toAppend ++ [⟨c.station, c.price, c.date, F, c.scrapeDate, c.source⟩],
        added := st.added + 1 } := by
  unfold stepMain
  dsimp only
  rw [hf, hF]
  rw [if_neg (by simp [hnk]), if_neg (by simp [hnb])]
  simp only [List.count_nil, Nat.zero_add]

theorem cap_run_count (F : String) (N : Nat) (hF : ROW_LIMITS F = some N)
    (l : List PRow) (st : MainState)
    (hfuel : ∀ c ∈ l, normalize_fuel c.fuel = F)
    (hbound : ∀ c ∈ l, priceOutOfBounds F c.price = false)
    (hnew : ∀ c ∈ l, make_key_norm c.station (some c.price) c.date F ∉ st.pendingKeys)
    (hdist : l.Pairwise (fun a b => make_key_norm a.station (some a.price) a.date F
      ≠ make_key_norm b.station (some b.price) b.date F))
    (hcount : st.pendingFuels.count F = st.added)
    (hle : st.added ≤ N) :
    (l.foldl (stepMain [] []) st).added = min (st.added + l.length) N ∧
    (l.foldl (stepMain [] []) st).skippedCap
      = st.skippedCap + (st.added + l.length - min (st.added + l.length) N) := by
  induction l generalizing st with
  | nil =>
      simp only [List.foldl_nil, List.length_nil, Nat.add_zero]
      rw [Nat.min_eq_left hle]
      omega
  | cons c cs ih =>
      have hf := hfuel c (List.mem_cons_self c cs)
      have hb := hbound c (List.mem_cons_self c cs)
      have hk := hnew c (List.mem_cons_self c cs)
      have hspec := stepMain_empty_spec st c F N hf hF hb hk
      rw [List.foldl_cons, hspec]
      by_cases hfull : N ≤ st.pendingFuels.count F
      · rw [if_pos hfull]
        have hNa : st.added = N := by omega
        have ih' := ih { st with skippedCap := st.skippedCap + 1 }
          (fun x hx => hfuel x (List.mem_cons_of_mem c hx))
          (fun x hx => hbound x (List.mem_cons_of_mem c hx))
          (fun x hx => hnew x (List.mem_cons_of_mem c hx))
          (List.Pairwise.sublist (List.sublist_cons_self c cs) hdist)
          hcount hle
        rcases ih' with ⟨h1, h2⟩
        dsimp only at h1 h2
        have hmin1 : min (st.added + cs.length) N = N := by
          rw [hNa]
          exact min_eq_right (Nat.le_add_right N cs.length)
        have hmin2 : min (st.added + (c :: cs).length) N = N := by
          rw [hNa]
          exact min_eq_right (Nat.le_add_right N _)
        constructor
        · rw [h1, hmin1, hmin2]
        · rw [h2, hmin1, hmin2]
          simp only [List.length_cons]
          omega
      · rw [if_neg hfull]
        have hlt : st.added < N := by omega
        have ih' := ih { st with
            pendingKeys := make_key_norm c.station (some c.price) c.date F :: st.pendingKeys,
            pendingFuels := F :: st.pendingFuels,
            toAppend := st.toAppend ++ [⟨c.station, c.price, c.date, F, c.scrapeDate, c.source⟩],
            added := st.added + 1 }
          (fun x hx => hfuel x (List.mem_cons_of_mem c hx))
          (fun x hx => hbound x (List.mem_cons_of_mem c hx))
          (fun x hx => by
            simp only [List.mem_cons]
            push_neg
            constructor
            · have hrel := (List.pairwise_cons.mp hdist).1 x hx
              exact fun hcon => hrel hcon.symm
            · exact hnew x (List.mem_cons_of_mem c hx))
          (List.Pairwise.sublist (List.sublist_cons_self c cs) hdist)
          (by dsimp only
              simp only [List.count_cons_self]
              omega)
          (by dsimp only
              omega)
        rcases ih' with ⟨h1, h2⟩
        dsimp only at h1 h2
        have harg : st.added + 1 + cs.length = st.added + (c :: cs).length := by
          simp only [List.length_cons]
          omega
        constructor
        · rw [h1, harg]
        · rw [h2, harg]

/-- C2: with a cap `N` configured for a fuel category, a candidate is
accepted only when (persisted count for that category and the candidate's
date) + (this run's accepted count for that category, across dates) is
strictly below `N`; and from an empty store, `N + 5` distinct valid
candidates of one category give exactly `N` accepted and `5` cap-rejected. -/
theorem claim_C2_cap_enforcement (today : SDate) :
    (∀ (ek : List PKey) (fd : List (String × String)) (st : MainState) (r : PRow) (N : Nat),
      ROW_LIMITS (normalize_fuel r.fuel) = some N →
      (stepMain ek fd st r).added = st.added + 1 →
      fd.count (normalize_fuel r.fuel, r.date)
        + st.pendingFuels.count (normalize_fuel r.fuel) < N) ∧
    (∀ (F : String) (N : Nat) (l : List PRow),
      ROW_LIMITS F = some N →
      (∀ c ∈ l, normalize_fuel c.fuel = F) →
      (∀ c ∈ l, priceOutOfBounds F c.price = false) →
      l.Pairwise (fun a b => make_key_norm a.station (some a.price) a.date F
        ≠ make_key_norm b.station (some b.price) b.date F) →
      l.length = N + 5 →
      (mainRun today [] l).1.added = N ∧ (mainRun today [] l).1.skippedCap = 5) := by
  constructor
  · intro ek fd st r N hlim hacc
    unfold stepMain at hacc
    dsimp only at hacc
    rw [hlim] at hacc
    by_cases hdup : (make_key_norm r.station (some r.price) r.date (normalize_fuel r.fuel) ∈ ek ∨
        make_key_norm r.station (some r.price) r.date (normalize_fuel r.fuel) ∈ st.pendingKeys)
    · rw [if_pos hdup] at hacc
      dsimp only at hacc
      omega
    · rw [if_neg hdup] at hacc
      by_cases hpr : priceOutOfBounds (normalize_fuel r.fuel) r.price = true
      · rw [if_pos hpr] at hacc
        dsimp only at hacc
        omega
      · rw [if_neg hpr] at hacc
        dsimp only at hacc
        by_cases hcap : N ≤ fd.count (normalize_fuel r.fuel, r.date)
            + st.pendingFuels.count (normalize_fuel r.fuel)
        · rw [if_pos hcap] at hacc
          dsimp only at hacc
          omega
        · omega
  · intro F N l hF hfuel hbound hdist hlen
    have h := cap_run_count F N hF l ⟨[], [], [], 0, 0, 0, 0⟩ hfuel hbound
      (by intro c hc
          simp)
      hdist (by simp) (by simp)
    have hrun : (mainRun today [] l).1 = l.foldl (stepMain [] []) ⟨[], [], [], 0, 0, 0, 0⟩ := by
      simp only [mainRun, List.map_nil]
      rfl
    rw [hrun]
    rcases h with ⟨h1, h2⟩
    dsimp only at h1 h2
    rw [hlen] at h1 h2
    have hmin : min (0 + (N + 5)) N = N := by
      simp only [Nat.zero_add]
      exact min_eq_right (Nat.le_add_right N 5)
    rw [hmin] at h1 h2
    refine ⟨h1, ?_⟩
    rw [h2]
    omega

/-- Witness for C2 at a concrete input: fuel `98` has cap 3; eight distinct
valid candidates give 3 accepted and 5 cap-rejected, and a concrete accepted
step satisfies the strict inequality. -/
theorem claim_C2_cap_enforcement_witness :
    ((mainRun ⟨2025, 1, 10⟩ []
        [⟨"a", 15, "2025-01-02", "98", "sd", "src"⟩, ⟨"b", 15, "2025-01-02", "98", "sd", "src"⟩,
         ⟨"c", 15, "2025-01-02", "98", "sd", "src"⟩, ⟨"d", 15, "2025-01-02", "98", "sd", "src"⟩,
         ⟨"e", 15, "2025-01-02", "98", "sd", "src"⟩, ⟨"f", 15, "2025-01-02", "98", "sd", "src"⟩,
         ⟨"g", 15, "2025-01-02", "98", "sd", "src"⟩, ⟨"h", 15, "2025-01-02", "98", "sd", "src"⟩]).1.added
      = 3 ∧
      (mainRun ⟨2025, 1, 10⟩ []
        [⟨"a", 15, "2025-01-02", "98", "sd", "src"⟩, ⟨"b", 15, "2025-01-02", "98", "sd", "src"⟩,
         ⟨"c", 15, "2025-01-02", "98", "sd", "src"⟩, ⟨"d", 15, "2025-01-02", "98", "sd", "src"⟩,
         ⟨"e", 15, "2025-01-02", "98", "sd", "src"⟩, ⟨"f", 15, "2025-01-02", "98", "sd", "src"⟩,
         ⟨"g", 15, "2025-01-02", "98", "sd", "src"⟩, ⟨"h", 15, "2025-01-02", "98", "sd", "src"⟩]).1.skippedCap
      = 5) ∧
    ([] : List (String × String)).count (normalize_fuel "98", "2025-01-02")
      + (initMain.pendingFuels.count (normalize_fuel "98")) < 3 := by
  constructor
  · exact (claim_C2_cap_enforcement ⟨2025, 1, 10⟩).2 "98" 3
      [⟨"a", 15, "2025-01-02", "98", "sd", "src"⟩, ⟨"b", 15, "2025-01-02", "98", "sd", "src"⟩,
       ⟨"c", 15, "2025-01-02", "98", "sd", "src"⟩, ⟨"d", 15, "2025-01-02", "98", "sd", "src"⟩,
       ⟨"e", 15, "2025-01-02", "98", "sd", "src"⟩, ⟨"f", 15, "2025-01-02", "98", "sd", "src"⟩,
       ⟨"g", 15, "2025-01-02", "98", "sd", "src"⟩, ⟨"h", 15, "2025-01-02", "98", "sd", "src"⟩]
      (by decide) (by decide) (by decide) (by decide) (by decide)
  · have h := (claim_C2_cap_enforcement ⟨2025, 1, 10⟩).1 [] [] initMain
      ⟨"a", 15, "2025-01-02", "98", "sd", "src"⟩ 3 (by decide) (by decide)
    simpa using h

theorem natOfDigits_foldl_lt (l : List Char) (a : Nat)
    (h : ∀ c ∈ l, isDigitC c = true) :
    List.foldl (fun a c => a * 10 + (c.toNat - 48)) a l < (a + 1) * 10 ^ l.length := by
  induction l generalizing a with
  | nil => simp
  | cons c cs ih =>
      have hc := h c (List.mem_cons_self c cs)
      have hv : c.toNat - 48 ≤ 9 := by
        simp only [isDigitC, Bool.and_eq_true, decide_eq_true_eq] at hc
        omega
      have step := ih (a * 10 + (c.toNat - 48)) (fun x hx => h x (List.mem_cons_of_mem c hx))
      calc List.foldl (fun a c => a * 10 + (c.toNat - 48)) a (c :: cs)
          = List.foldl (fun a c => a * 10 + (c.toNat - 48)) (a * 10 + (c.toNat - 48)) cs := by
            simp [List.foldl_cons]
        _ < (a * 10 + (c.toNat - 48) + 1) * 10 ^ cs.length := step
        _ ≤ ((a + 1) * 10) * 10 ^ cs.length := Nat.mul_le_mul_right _ (by omega)
        _ = (a + 1) * 10 ^ (c :: cs).length := by
            simp only [List.length_cons]
            ring

theorem natOfDigits_lt (l : List Char) (h : ∀ c ∈ l, isDigitC c = true) :
    natOfDigits l < 10 ^ l.length := by
  have := natOfDigits_foldl_lt l 0 h
  simpa [natOfDigits] using this

theorem daysInMonth_le_31 (y m : Nat) : daysInMonth y m ≤ 31 := by
  unfold daysInMonth
  split
  · split <;> omega
  · split <;> omega

theorem predDate_bounds (dt : SDate) (hy : dt.year ≤ 9999) (hm : dt.month ≤ 99)
    (hd : dt.day ≤ 99) :
    (predDate dt).year ≤ 9999 ∧ (predDate dt).month ≤ 99 ∧ (predDate dt).day ≤ 99 := by
  unfold predDate
  split
  · refine ⟨?_, ?_, ?_⟩ <;> dsimp only <;> omega
  · split
    · refine ⟨?_, ?_, ?_⟩ <;> dsimp only
      · omega
      · omega
      · exact le_trans (daysInMonth_le_31 _ _) (by omega)
    · refine ⟨?_, ?_, ?_⟩ <;> dsimp only <;> omega

theorem matchIso3_bounds (l : List Char) (y mo dd : Nat)
    (h : matchIso3 l = some (y, mo, dd)) : y ≤ 9999 ∧ mo ≤ 99 ∧ dd ≤ 99 := by
  unfold matchIso3 digitSpan at h
  dsimp only at h
  split at h
  · next hlen =>
      split at h
      · next s2 hs2 =>
          split at h
          · next hlen2 =>
              split at h
              · next s4 hs4 =>
                  split at h
                  · next hlen3 =>
                      simp only [Option.some.injEq, Prod.mk.injEq] at h
                      rcases h with ⟨hy, hmo, hdd⟩
                      simp only [Bool.and_eq_true, decide_eq_true_eq] at hlen2 hlen3
                      obtain ⟨h2a, h2b⟩ := hlen2
                      obtain ⟨⟨h3a, h3b⟩, h3c⟩ := hlen3
                      refine ⟨?_, ?_, ?_⟩
                      · rw [← hy]
                        have hb := natOfDigits_lt (l.takeWhile isDigitC)
                          (fun c hc => List.mem_takeWhile_imp hc)
                        rw [hlen] at hb
                        omega
                      · rw [← hmo]
                        have hb := natOfDigits_lt (List.takeWhile isDigitC s2)
                          (fun c hc => List.mem_takeWhile_imp hc)
                        have h100 : (10 : Nat) ^ (List.takeWhile isDigitC s2).length ≤ 10 ^ 2 :=
                          Nat.pow_le_pow_right (by omega) h2b
                        omega
                      · rw [← hdd]
                        have hb := natOfDigits_lt (List.takeWhile isDigitC s4)
                          (fun c hc => List.mem_takeWhile_imp hc)
                        have h100 : (10 : Nat) ^ (List.takeWhile isDigitC s4).length ≤ 10 ^ 2 :=
                          Nat.pow_le_pow_right (by omega) h3b
                        omega
                  · simp at h
              · simp at h
          · simp at h
      · simp at h
  · simp at h

theorem matchDM_bounds (l : List Char) (dd mo : Nat)
    (h : matchDM l = some (dd, mo)) : dd ≤ 99 ∧ mo ≤ 99 := by
  unfold matchDM digitSpan at h
  dsimp only at h
  split at h
  · next hlen =>
      split at h
      · next s2 hs2 =>
          split at h
          · next hlen2 =>
              simp only [Option.some.injEq, Prod.mk.injEq] at h
              rcases h with ⟨hdd, hmo⟩
              simp only [Bool.and_eq_true, decide_eq_true_eq] at hlen hlen2
              obtain ⟨h1a, h1b⟩ := hlen
              obtain ⟨⟨h2a, h2b⟩, h2c⟩ := hlen2
              constructor
              · rw [← hdd]
                have hb := natOfDigits_lt (l.takeWhile isDigitC)
                  (fun c hc => List.mem_takeWhile_imp hc)
                have h100 : (10 : Nat) ^ (l.takeWhile isDigitC).length ≤ 10 ^ 2 :=
                  Nat.pow_le_pow_right (by omega) h1b
                omega
              · rw [← hmo]
                have hb := natOfDigits_lt (List.takeWhile isDigitC s2)
                  (fun c hc => List.mem_takeWhile_imp hc)
                have h100 : (10 : Nat) ^ (List.takeWhile isDigitC s2).length ≤ 10 ^ 2 :=
                  Nat.pow_le_pow_right (by omega) h2b
                omega
          · simp at h
      · simp at h
  · simp at h

theorem validDate_bounds (y m d : Nat) (h : validDate y m d = true) :
    y ≤ 9999 ∧ m ≤ 99 ∧ d ≤ 99 := by
  simp only [validDate, Bool.and_eq_true, decide_eq_true_eq] at h
  obtain ⟨⟨⟨⟨⟨h1, h2⟩, h3⟩, h4⟩, h5⟩, h6⟩ := h
  have h31 := daysInMonth_le_31 y m
  exact ⟨h2, by omega, by omega⟩

/-- Every successful output of `normalize_date_str` has the zero-padded
`YYYY-MM-DD` shape (without a calendar-validity guarantee). -/
theorem normalize_date_str_shape (today : SDate)
    (htoday : validDate today.year today.month today.day = true)
    (raw d : String) (h : normalize_date_str today raw = some d) :
    ∃ y m dd, y ≤ 9999 ∧ m ≤ 99 ∧ dd ≤ 99 ∧ d = fmtYMD y m dd := by
  have hb := validDate_bounds _ _ _ htoday
  unfold normalize_date_str at h
  dsimp only at h
  split at h
  · simp at h
  · split at h
    · simp only [Option.some.injEq] at h
      exact ⟨today.year, today.month, today.day, hb.1, hb.2.1, hb.2.2, h.symm⟩
    · split at h
      · simp only [Option.some.injEq] at h
        have hpb := predDate_bounds today hb.1 hb.2.1 hb.2.2
        exact ⟨(predDate today).year, (predDate today).month, (predDate today).day,
          hpb.1, hpb.2.1, hpb.2.2, h.symm⟩
      · split at h
        · next y mo dd' hiso =>
            simp only [Option.some.injEq] at h
            have hbs := matchIso3_bounds _ _ _ _ hiso
            exact ⟨y, mo, dd', hbs.1, hbs.2.1, hbs.2.2, h.symm⟩
        · split at h
          · next day month hdm =>
              simp only [Option.some.injEq] at h
              have hbs := matchDM_bounds _ _ _ hdm
              refine ⟨inferYear today month day, month, day, ?_, hbs.2, hbs.1, h.symm⟩
              unfold inferYear
              split
              · omega
              · omega
          · simp at h

theorem stepMain_skippedPrice (ek : List PKey) (fd : List (String × String))
    (st : MainState) (r : PRow)
    (h : priceOutOfBounds (normalize_fuel r.fuel) r.price = false) :
    (stepMain ek fd st r).skippedPrice = st.skippedPrice := by
  unfold stepMain
  dsimp only
  by_cases hdup : (make_key_norm r.station (some r.price) r.date (normalize_fuel r.fuel) ∈ ek ∨
      make_key_norm r.station (some r.price) r.date (normalize_fuel r.fuel) ∈ st.pendingKeys)
  · rw [if_pos hdup]
  · rw [if_neg hdup, if_neg (by simp [h])]
    cases hlim : ROW_LIMITS (normalize_fuel r.fuel) with
    | none => rfl
    | some N =>
        by_cases hcap : N ≤ fd.count (normalize_fuel r.fuel, r.date)
            + st.pendingFuels.count (normalize_fuel r.fuel)
        · dsimp only
          rw [if_pos hcap]
        · dsimp only
          rw [if_neg hcap]

theorem foldl_stepMain_skippedPrice (ek : List PKey) (fd : List (String × String))
    (l : List PRow) (st : MainState)
    (h : ∀ c ∈ l, priceOutOfBounds (normalize_fuel c.fuel) c.price = false) :
    (l.foldl (stepMain ek fd) st).skippedPrice = st.skippedPrice := by
  induction l generalizing st with
  | nil => rfl
  | cons c cs ih =>
      rw [List.foldl_cons, ih _ (fun x hx => h x (List.mem_cons_of_mem c hx)),
        stepMain_skippedPrice ek fd st c (h c (List.mem_cons_self c cs))]

/-- C9: every record emitted by `scrape_one_url` has an in-bounds price for
its (normalized) fuel and a date of the `YYYY-MM-DD` shape; consequently the
redundant bounds check of `main` never fires: the run's out-of-bounds count
is zero for every run fed from the scrape pages. -/
theorem claim_C9_scrape_invariant (today : SDate)
    (htoday : validDate today.year today.month today.day = true) :
    (∀ (fuelKey : String) (trs : List RawTr) (r : PRow), r ∈ scrape_one_url today fuelKey trs →
      priceOutOfBounds (normalize_fuel r.fuel) r.price = false ∧
      ∃ y m dd, y ≤ 9999 ∧ m ≤ 99 ∧ dd ≤ 99 ∧ r.date = fmtYMD y m dd) ∧
    (∀ (pages : List (String × List RawTr)) (store : List PRow),
      (mainRun today store
        (pages.flatMap (fun p => scrape_one_url today p.1 p.2))).1.skippedPrice = 0) := by
  have hmem : ∀ (fuelKey : String) (trs : List RawTr) (r : PRow),
      r ∈ scrape_one_url today fuelKey trs →
      priceOutOfBounds (normalize_fuel r.fuel) r.price = false ∧
      ∃ y m dd, y ≤ 9999 ∧ m ≤ 99 ∧ dd ≤ 99 ∧ r.date = fmtYMD y m dd := by
    intro fk trs r hr
    rcases List.mem_filterMap.mp hr with ⟨tr, htr, hsc⟩
    rcases scrapeRow_some_structure today fk tr r hsc with ⟨⟨raw, hraw, hnorm⟩, hbound, hfuel⟩
    constructor
    · rw [hfuel, normalize_fuel_idem]
      exact hbound
    · exact normalize_date_str_shape today htoday raw r.date hnorm
  refine ⟨hmem, ?_⟩
  intro pages store
  simp only [mainRun]
  have hall : ∀ c ∈ pages.flatMap (fun p => scrape_one_url today p.1 p.2),
      priceOutOfBounds (normalize_fuel c.fuel) c.price = false := by
    intro c hc
    rcases List.mem_flatMap.mp hc with ⟨p, hp, hcp⟩
    exact (hmem p.1 p.2 c hcp).1
  rw [foldl_stepMain_skippedPrice _ _ _ _ hall]
  rfl

/-- Witness for C9 at a concrete input. -/
theorem claim_C9_scrape_invariant_witness :
    (priceOutOfBounds (normalize_fuel "98") (mkRat 1471 100) = false ∧
      ∃ y m dd, y ≤ 9999 ∧ m ≤ 99 ∧ dd ≤ 99 ∧ "2024-09-15" = fmtYMD y m dd) ∧
    (mainRun ⟨2025, 1, 10⟩ []
      ([("98", [⟨["S", "p"], some "15/9", "14,71kr"⟩])].flatMap
        (fun p => scrape_one_url ⟨2025, 1, 10⟩ p.1 p.2))).1.skippedPrice = 0 := by
  have h := claim_C9_scrape_invariant ⟨2025, 1, 10⟩ (by decide)
  have h1 := h.1 "98" [⟨["S", "p"], some "15/9", "14,71kr"⟩]
    ⟨"S", mkRat 1471 100, "2024-09-15", "98", "2025-01-10", "bensinpriser.nu"⟩ (by decide)
  have h2 := h.2 [("98", [⟨["S", "p"], some "15/9", "14,71kr"⟩])] []
  refine ⟨⟨?_, ?_⟩, h2⟩
  · simpa using h1.1
  · simpa using h1.2

theorem map_self (f : Char → Char) (l : List Char) (h : ∀ x ∈ l, f x = x) : l.map f = l := by
  induction l with
  | nil => rfl
  | cons c cs ih =>
      simp [h c (List.mem_cons_self c cs), ih (fun x hx => h x (List.mem_cons_of_mem c hx))]

theorem dropWhile_eq_self_of_none (p : Char → Bool) (l : List Char)
    (h : ∀ x ∈ l, p x = false) : l.dropWhile p = l := by
  cases l with
  | nil => rfl
  | cons c cs => simp [List.dropWhile_cons, h c (List.mem_cons_self c cs)]

theorem pyStrip_eq_self_of_no_ws (l : List Char) (h : ∀ x ∈ l, pyWs x = false) :
    pyStrip l = l := by
  unfold pyStrip
  rw [dropWhile_eq_self_of_none pyWs l h,
    dropWhile_eq_self_of_none pyWs l.reverse (fun x hx => h x (List.mem_reverse.mp hx)),
    List.reverse_reverse]

theorem digit_or_slash_not_ws (c : Char) (h : isDigitC c = true ∨ c = '/') :
    pyWs c = false := by
  rcases h with h | h
  · simp only [isDigitC, Bool.and_eq_true, decide_eq_true_eq] at h
    simp only [pyWs, Bool.or_eq_false_iff, decide_eq_false_iff_not]
    refine ⟨⟨⟨⟨⟨⟨?_, ?_⟩, ?_⟩, ?_⟩, ?_⟩, ?_⟩, ?_⟩ <;>
      (intro he; rw [he] at h; exact absurd h (by decide))
  · rw [h]
    decide

theorem lowerC_digit_or_slash (c : Char) (h : isDigitC c = true ∨ c = '/') :
    lowerC c = c := by
  rcases h with h | h
  · simp only [isDigitC, Bool.and_eq_true, decide_eq_true_eq] at h
    unfold lowerC
    rw [if_neg (fun he => by rw [he] at h; exact absurd h (by decide)),
      if_neg (fun he => by rw [he] at h; exact absurd h (by decide)),
      if_neg (fun he => by rw [he] at h; exact absurd h (by decide)),
      if_neg (fun he => by rw [he] at h; exact absurd h (by decide))]
    unfold Char.toLower
    rw [if_neg (by omega)]
  · rw [h]
    decide

theorem startsWithL_mem (pat l : List Char) (h : startsWithL pat l = true) :
    ∀ x ∈ pat, x ∈ l := by
  induction pat generalizing l with
  | nil => intro x hx; simp at hx
  | cons p ps ih =>
      cases l with
      | nil => simp [startsWithL] at h
      | cons c cs =>
          simp only [startsWithL, Bool.and_eq_true, decide_eq_true_eq] at h
          intro x hx
          rcases List.mem_cons.mp hx with rfl | hx'
          · rw [h.1]
            exact List.mem_cons_self _ _
          · exact List.mem_cons_of_mem _ (ih cs h.2 x hx')

theorem containsSub_mem (pat l : List Char) (h : containsSub pat l = true) :
    ∀ x ∈ pat, x ∈ l := by
  induction l with
  | nil =>
      intro x hx
      cases pat with
      | nil => simp at hx
      | cons p ps => simp [containsSub, startsWithL] at h
  | cons c cs ih =>
      simp only [containsSub, Bool.or_eq_true] at h
      rcases h with h | h
      · exact startsWithL_mem pat (c :: cs) h
      · exact fun x hx => List.mem_cons_of_mem _ (ih h x hx)

theorem containsSub_false_of_not_mem (p0 : Char) (ps l : List Char) (h : p0 ∉ l) :
    containsSub (p0 :: ps) l = false := by
  by_contra hcon
  have hc : containsSub (p0 :: ps) l = true := by
    revert hcon
    cases containsSub (p0 :: ps) l <;> simp
  exact h (containsSub_mem _ _ hc p0 (List.mem_cons_self p0 ps))

theorem hasBforrAux_mem (prev : Option Char) (l : List Char)
    (h : hasBforrAux prev l = true) : 'f' ∈ l := by
  induction l generalizing prev with
  | nil => simp [hasBforrAux] at h
  | cons c cs ih =>
      simp only [hasBforrAux, Bool.or_eq_true, Bool.and_eq_true] at h
      rcases h with ⟨_, hsw⟩ | h
      · have := startsWithL_mem _ _ hsw 'f' (by decide)
        exact this
      · exact List.mem_cons_of_mem _ (ih (some c) h)

theorem startsWithL_false_of_head_ne (p0 : Char) (ps l : List Char)
    (h : ∀ c ∈ l, isDigitC c = true ∨ c = '/') (hp : isDigitC p0 = false ∧ p0 ≠ '/') :
    startsWithL (p0 :: ps) l = false := by
  cases l with
  | nil => rfl
  | cons c cs =>
      have hc := h c (List.mem_cons_self c cs)
      simp only [startsWithL, Bool.and_eq_false_iff]
      left
      simp only [decide_eq_false_iff_not]
      intro he
      rw [← he] at hc
      rcases hc with hc | hc
      · rw [hc] at hp
        simp at hp
      · exact hp.2 hc

theorem matchDM_head (l : List Char) (d m : Nat) (h : matchDM l = some (d, m)) :
    ∃ c cs, l = c :: cs ∧ isDigitC c = true := by
  cases l with
  | nil =>
      rw [show matchDM [] = none from rfl] at h
      exact absurd h (by simp)
  | cons c cs =>
      refine ⟨c, cs, rfl, ?_⟩
      by_contra hc
      have hc' : isDigitC c = false := by
        revert hc
        cases isDigitC c <;> simp
      unfold matchDM digitSpan at h
      dsimp only at h
      rw [List.takeWhile_cons, hc'] at h
      simp at h

theorem matchDM_len (l : List Char) (d m : Nat) (h : matchDM l = some (d, m)) :
    1 ≤ (l.takeWhile isDigitC).length ∧ (l.takeWhile isDigitC).length ≤ 2 := by
  unfold matchDM digitSpan at h
  dsimp only at h
  by_cases hb : (decide (1 ≤ (l.takeWhile isDigitC).length)
      && decide ((l.takeWhile isDigitC).length ≤ 2)) = true
  · simpa using hb
  · rw [if_neg (by simpa using hb)] at h
    simp at h

theorem matchDM_imp_matchIso3_none (l : List Char) (d m : Nat)
    (h : matchDM l = some (d, m)) : matchIso3 l = none := by
  have hlen := matchDM_len l d m h
  unfold matchIso3 digitSpan
  dsimp only
  rw [if_neg (by omega)]

theorem matchDMY_head (l : List Char) (d m : Nat) (oy : Option Nat)
    (h : matchDMY l = some (d, m, oy)) :
    ∃ c cs, l = c :: cs ∧ isDigitC c = true := by
  cases l with
  | nil =>
      rw [show matchDMY [] = none from rfl] at h
      exact absurd h (by simp)
  | cons c cs =>
      refine ⟨c, cs, rfl, ?_⟩
      by_contra hc
      have hc' : isDigitC c = false := by
        revert hc
        cases isDigitC c <;> simp
      unfold matchDMY digitSpan at h
      dsimp only at h
      rw [List.takeWhile_cons, hc'] at h
      simp at h

theorem matchDMY_len (l : List Char) (d m : Nat) (oy : Option Nat)
    (h : matchDMY l = some (d, m, oy)) :
    1 ≤ (l.takeWhile isDigitC).length ∧ (l.takeWhile isDigitC).length ≤ 2 := by
  unfold matchDMY digitSpan at h
  dsimp only at h
  by_cases hb : (decide (1 ≤ (l.takeWhile isDigitC).length)
      && decide ((l.takeWhile isDigitC).length ≤ 2)) = true
  · simpa using hb
  · rw [if_neg (by simpa using hb)] at h
    simp at h

theorem matchDMY_imp_matchIsoToken_none (l : List Char) (d m : Nat) (oy : Option Nat)
    (h : matchDMY l = some (d, m, oy)) : matchIsoToken l = none := by
  have hlen := matchDMY_len l d m oy h
  unfold matchIsoToken digitSpan
  dsimp only
  rw [if_neg (by omega)]

theorem matchKlAt_none_of_no_k (l : List Char) (h : 'k' ∉ l) : matchKlAt l = none := by
  unfold matchKlAt
  split
  · exact absurd (List.mem_cons_self 'k' _) h
  · exact absurd (List.mem_cons_self 'k' _) h
  · rfl

theorem removeKlAux_id_of_no_k (fuel : Nat) (prev : Option Char) (l : List Char)
    (h : 'k' ∉ l) : removeKlAux fuel prev l = l := by
  induction fuel generalizing prev l with
  | zero => rfl
  | succ n ih =>
      cases l with
      | nil => rfl
      | cons c cs =>
          have hcs : 'k' ∉ cs := fun hm => h (List.mem_cons_of_mem c hm)
          unfold removeKlAux
          rw [matchKlAt_none_of_no_k (c :: cs) h]
          by_cases hbd : boundaryOk prev = true
      <;> simp [hbd, ih (some c) cs hcs]

theorem removeKl_id_of_no_k (l : List Char) (h : 'k' ∉ l) : removeKl l = l :=
  removeKlAux_id_of_no_k _ none l h

theorem stripDatumPfx_id (l : List Char) (h : ∀ c ∈ l, isDigitC c = true ∨ c = '/') :
    stripDatumPfx l = l := by
  unfold stripDatumPfx
  rw [startsWithL_false_of_head_ne 'd' _ l h (by decide)]
  simp

theorem nodiacC_id (c : Char) (h : isDigitC c = true ∨ c = '/') : nodiacC c = c := by
  rcases h with h | h
  · simp only [isDigitC, Bool.and_eq_true, decide_eq_true_eq] at h
    unfold nodiacC
    rw [if_neg (fun he => by rw [he] at h; exact absurd h (by decide)),
      if_neg (fun he => by rw [he] at h; exact absurd h (by decide)),
      if_neg (fun he => by rw [he] at h; exact absurd h (by decide))]
  · rw [h]
    decide

theorem sepUnify_id (c : Char) (h : isDigitC c = true ∨ c = '/') : sepUnify c = c := by
  rcases h with h | h
  · simp only [isDigitC, Bool.and_eq_true, decide_eq_true_eq] at h
    unfold sepUnify
    rw [if_neg (fun he => by rw [he] at h; exact absurd h (by decide)),
      if_neg (fun he => by rw [he] at h; exact absurd h (by decide)),
      if_neg (fun he => by rw [he] at h; exact absurd h (by decide))]
  · rw [h]
    decide

theorem nbspC_id (c : Char) (h : isDigitC c = true ∨ c = '/') :
    (if c = '\xa0' then ' ' else c) = c := by
  rcases h with h | h
  · simp only [isDigitC, Bool.and_eq_true, decide_eq_true_eq] at h
    rw [if_neg (fun he => by rw [he] at h; exact absurd h (by decide))]
  · rw [h]
    decide

theorem startsWithL_cons_ne (p0 : Char) (ps : List Char) (c : Char) (cs : List Char)
    (h : p0 ≠ c) : startsWithL (p0 :: ps) (c :: cs) = false := by
  simp [startsWithL, h]

theorem digit_ne_of_high (c : Char) (p0 : Char) (hdig : isDigitC c = true)
    (hp : 58 ≤ p0.toNat) : p0 ≠ c := by
  intro he
  simp only [isDigitC, Bool.and_eq_true, decide_eq_true_eq] at hdig
  rw [← he] at hdig
  omega

/-- The `dd/mm` branch of `normalize_date_str`: on a whitespace-free token
matching `^(\d{1,2})/(\d{1,2})$` the result is the zero-padded date with the
year inferred from today (no calendar validation). -/
theorem normalize_date_str_dm (today : SDate) (s : String) (day month : Nat)
    (hclean : pyStrip s.data = s.data)
    (hdm : matchDM s.data = some (day, month)) :
    normalize_date_str today s = some (fmtYMD (inferYear today month day) month day) := by
  rcases matchDM_head s.data day month hdm with ⟨c, cs, hcons, hdig⟩
  have hic : 'i' ≠ c := digit_ne_of_high c 'i' hdig (by decide)
  unfold normalize_date_str
  dsimp only
  rw [hclean]
  rw [if_neg (by rw [hcons]; simp)]
  have hlowhead : lowerL s.data = c :: lowerL cs := by
    rw [hcons]
    simp only [lowerL, List.map_cons]
    rw [lowerC_digit_or_slash c (Or.inl hdig)]
  have h1 : startsWithL "idag".data (lowerL s.data) = false := by
    rw [hlowhead]
    exact startsWithL_cons_ne 'i' _ c _ hic
  have h2 : startsWithL "igår".data (lowerL s.data) = false := by
    rw [hlowhead]
    exact startsWithL_cons_ne 'i' _ c _ hic
  have h3 : startsWithL "igar".data (lowerL s.data) = false := by
    rw [hlowhead]
    exact startsWithL_cons_ne 'i' _ c _ hic
  have h4 : startsWithL "ig".data (lowerL s.data) = false := by
    rw [hlowhead]
    exact startsWithL_cons_ne 'i' _ c _ hic
  rw [if_neg (by simp [h1]), if_neg (by simp [h2, h3, h4])]
  rw [matchDM_imp_matchIso3_none s.data day month hdm, hdm]

/-- The `dd/mm` (no explicit year) branch of `normalize_date_token`: on a
token of digits and slashes matching `^(\d{1,2})/(\d{1,2})$`, when the
inferred date is constructible the result is that date with the year
inferred from today. -/
theorem normalize_date_token_dm (today : SDate) (s : String) (day month : Nat)
    (hchars : ∀ c ∈ s.data, isDigitC c = true ∨ c = '/')
    (hdmy : matchDMY s.data = some (day, month, none))
    (hvalid : validDate (inferYear today month day) month day = true) :
    normalize_date_token today s = some (fmtYMD (inferYear today month day) month day) := by
  rcases matchDMY_head s.data day month none hdmy with ⟨c, cs, hcons, hdig⟩
  have hnows : ∀ x ∈ s.data, pyWs x = false :=
    fun x hx => digit_or_slash_not_ws x (hchars x hx)
  have hstrip : pyStrip s.data = s.data := pyStrip_eq_self_of_no_ws s.data hnows
  have hlower : lowerL s.data = s.data :=
    map_self lowerC s.data (fun x hx => lowerC_digit_or_slash x (hchars x hx))
  have hnbsp : s.data.map (fun c => if c = '\xa0' then ' ' else c) = s.data :=
    map_self _ s.data (fun x hx => nbspC_id x (hchars x hx))
  have hnd : s.data.map nodiacC = s.data :=
    map_self nodiacC s.data (fun x hx => nodiacC_id x (hchars x hx))
  have hsep : s.data.map sepUnify = s.data :=
    map_self sepUnify s.data (fun x hx => sepUnify_id x (hchars x hx))
  have hnotmem : ∀ p : Char, isDigitC p = false → p ≠ '/' → p ∉ s.data := by
    intro p hp1 hp2 hmem
    rcases hchars p hmem with h | h
    · rw [h] at hp1
      simp at hp1
    · exact hp2 h
  have hci : containsSub "idag".data s.data = false :=
    containsSub_false_of_not_mem 'i' _ s.data (hnotmem 'i' (by decide) (by decide))
  have hct : containsSub "today".data s.data = false :=
    containsSub_false_of_not_mem 't' _ s.data (hnotmem 't' (by decide) (by decide))
  have hci2 : containsSub "igår".data s.data = false :=
    containsSub_false_of_not_mem 'i' _ s.data (hnotmem 'i' (by decide) (by decide))
  have hci3 : containsSub "igar".data s.data = false :=
    containsSub_false_of_not_mem 'i' _ s.data (hnotmem 'i' (by decide) (by decide))
  have hcy : containsSub "yesterday".data s.data = false :=
    containsSub_false_of_not_mem 'y' _ s.data (hnotmem 'y' (by decide) (by decide))
  have hcf1 : containsSub "förrgår".data s.data = false :=
    containsSub_false_of_not_mem 'f' _ s.data (hnotmem 'f' (by decide) (by decide))
  have hcf2 : containsSub "forrgor".data s.data = false :=
    containsSub_false_of_not_mem 'f' _ s.data (hnotmem 'f' (by decide) (by decide))
  have hcif1 : containsSub "i förrgår".data s.data = false :=
    containsSub_false_of_not_mem 'i' _ s.data (hnotmem 'i' (by decide) (by decide))
  have hcif2 : containsSub "i forrgor".data s.data = false :=
    containsSub_false_of_not_mem 'i' _ s.data (hnotmem 'i' (by decide) (by decide))
  have hcif3 : containsSub "i forrgår".data s.data = false :=
    containsSub_false_of_not_mem 'i' _ s.data (hnotmem 'i' (by decide) (by decide))
  have hcif4 : containsSub "i forrgar".data s.data = false :=
    containsSub_false_of_not_mem 'i' _ s.data (hnotmem 'i' (by decide) (by decide))
  have hbf : hasBforr s.data = false := by
    by_contra hcon
    have hb : hasBforr s.data = true := by
      revert hcon
      cases hasBforr s.data <;> simp
    exact hnotmem 'f' (by decide) (by decide) (hasBforrAux_mem none s.data hb)
  have hkmem : 'k' ∉ s.data := hnotmem 'k' (by decide) (by decide)
  unfold normalize_date_token
  dsimp only
  rw [hstrip]
  rw [if_neg (by rw [hcons]; simp)]
  rw [hlower, hnbsp, hstrip, hnd]
  rw [if_neg (by simp [hci, hct]), if_neg (by simp [hci2, hci3, hcy]),
    if_neg (by simp [hcf1, hcf2, hcif1, hcif2, hcif3, hcif4]),
    if_neg (by simp [hcf1, hcf2]),
    if_neg (by simp [hasBforr, show hasBforrAux none s.data = false from hbf])]
  rw [stripDatumPfx_id s.data hchars, hstrip, removeKl_id_of_no_k s.data hkmem, hstrip,
    hsep, hstrip]
  rw [matchDMY_imp_matchIsoToken_none s.data day month none hdmy, hdmy]
  dsimp only
  unfold mkValidIso
  rw [if_pos hvalid]

/-- C6: for day/month tokens without an explicit year both date normalizers
infer the year from the current date by the rule "previous year iff the
(month, day) pair lies strictly after today's (month, day)"; in particular
`"15/9"` with today `2025-01-10` normalizes to `2024-09-15` in both
pipelines. -/
theorem claim_C6_year_inference (today : SDate) :
    (∀ (mo dd : Nat), inferYear today mo dd
        = if mo > today.month ∨ (mo = today.month ∧ dd > today.day) then today.year - 1
          else today.year) ∧
    (∀ (s : String) (day month : Nat), pyStrip s.data = s.data →
      matchDM s.data = some (day, month) →
      normalize_date_str today s = some (fmtYMD (inferYear today month day) month day)) ∧
    (∀ (s : String) (day month : Nat), (∀ c ∈ s.data, isDigitC c = true ∨ c = '/') →
      matchDMY s.data = some (day, month, none) →
      validDate (inferYear today month day) month day = true →
      normalize_date_token today s = some (fmtYMD (inferYear today month day) month day)) ∧
    normalize_date_str ⟨2025, 1, 10⟩ "15/9" = some "2024-09-15" ∧
    normalize_date_token ⟨2025, 1, 10⟩ "15/9" = some "2024-09-15" := by
  refine ⟨?_, ?_, ?_, by decide, by decide⟩
  · intro mo dd
    unfold inferYear
    split
    · next hc =>
        rw [if_pos (by simpa using hc)]
    · next hc =>
        rw [if_neg (by simpa using hc)]
  · intro s day month hclean hdm
    exact normalize_date_str_dm today s day month hclean hdm
  · intro s day month hchars hdmy hvalid
    exact normalize_date_token_dm today s day month hchars hdmy hvalid

/-- Witness for C6 at concrete inputs. -/
theorem claim_C6_year_inference_witness :
    inferYear ⟨2025, 1, 10⟩ 9 15
        = (if 9 > 1 ∨ (9 = 1 ∧ 15 > 10) then 2025 - 1 else 2025) ∧
    normalize_date_str ⟨2025, 1, 10⟩ "15/9"
        = some (fmtYMD (inferYear ⟨2025, 1, 10⟩ 9 15) 9 15) ∧
    normalize_date_token ⟨2025, 1, 10⟩ "15/9"
        = some (fmtYMD (inferYear ⟨2025, 1, 10⟩ 9 15) 9 15) := by
  have h := claim_C6_year_inference ⟨2025, 1, 10⟩
  refine ⟨h.1 9 15, ?_, ?_⟩
  · exact h.2.1 "15/9" 15 9 (by decide) (by decide)
  · exact h.2.2.1 "15/9" 15 9 (by decide) (by decide) (by decide)

theorem daysInMonth_pos (y m : Nat) : 1 ≤ daysInMonth y m := by
  unfold daysInMonth
  split
  · split <;> omega
  · split <;> omega

theorem daysInMonth_dec (y : Nat) : daysInMonth y 12 = 31 := rfl

theorem mkValidIso_some (y m d : Nat) (r : String) (h : mkValidIso y m d = some r) :
    validDate y m d = true ∧ r = fmtYMD y m d := by
  unfold mkValidIso at h
  split at h
  · next hv => exact ⟨hv, (Option.some.injEq _ _ ▸ h.symm)⟩
  · simp at h

theorem validDate_predDate (dt : SDate) (hv : validDate dt.year dt.month dt.day = true)
    (h : 2 ≤ dt.year ∨ ¬(dt.month = 1 ∧ dt.day = 1)) :
    validDate (predDate dt).year (predDate dt).month (predDate dt).day = true := by
  simp only [validDate, Bool.and_eq_true, decide_eq_true_eq] at hv ⊢
  obtain ⟨⟨⟨⟨⟨h1, h2⟩, h3⟩, h4⟩, h5⟩, h6⟩ := hv
  unfold predDate
  split
  · next hd =>
      dsimp only
      exact ⟨⟨⟨⟨⟨h1, h2⟩, h3⟩, h4⟩, by omega⟩, by omega⟩
  · next hd =>
      split
      · next hm =>
          dsimp only
          exact ⟨⟨⟨⟨⟨h1, h2⟩, by omega⟩, by omega⟩, daysInMonth_pos _ _⟩, le_refl _⟩
      · next hm =>
          dsimp only
          have hy2 : 2 ≤ dt.year := by
            rcases h with h | h
            · exact h
            · exact absurd ⟨by omega, by omega⟩ h
          refine ⟨⟨⟨⟨⟨by omega, by omega⟩, by omega⟩, by omega⟩, by omega⟩, ?_⟩
          rw [daysInMonth_dec]

theorem predDate_year_keep (dt : SDate)
    (hc : (predDate dt).month = 1 ∧ (predDate dt).day = 1) :
    (predDate dt).year = dt.year := by
  unfold predDate at hc ⊢
  split at hc
  · next hd => rw [if_pos hd]
  · next hd =>
      split at hc
      · next hm => rw [if_neg hd, if_pos hm]
      · next hm =>
          dsimp only at hc
          omega

theorem validDate_predDate2 (dt : SDate) (hv : validDate dt.year dt.month dt.day = true)
    (hy : 2 ≤ dt.year) :
    validDate (predDate (predDate dt)).year (predDate (predDate dt)).month
      (predDate (predDate dt)).day = true := by
  have hp1 := validDate_predDate dt hv (Or.inl hy)
  apply validDate_predDate _ hp1
  by_cases hc : (predDate dt).month = 1 ∧ (predDate dt).day = 1
  · left
    rw [predDate_year_keep dt hc]
    exact hy
  · right
    exact hc

theorem matchIso3_head (l : List Char) (y mo dd : Nat)
    (h : matchIso3 l = some (y, mo, dd)) :
    ∃ c cs, l = c :: cs ∧ isDigitC c = true := by
  cases l with
  | nil =>
      rw [show matchIso3 [] = none from rfl] at h
      exact absurd h (by simp)
  | cons c cs =>
      refine ⟨c, cs, rfl, ?_⟩
      by_contra hc
      have hc' : isDigitC c = false := by
        revert hc
        cases isDigitC c <;> simp
      unfold matchIso3 digitSpan at h
      dsimp only at h
      rw [List.takeWhile_cons, hc'] at h
      simp at h

/-- The already-ISO branch of `normalize_date_str`: a whitespace-free token
matching `^(\d{4})-(\d{1,2})-(\d{1,2})$` is re-emitted zero-padded with no
calendar validation at all. -/
theorem normalize_date_str_iso_passthrough (today : SDate) (s : String) (y mo dd : Nat)
    (hclean : pyStrip s.data = s.data)
    (hiso : matchIso3 s.data = some (y, mo, dd)) :
    normalize_date_str today s = some (fmtYMD y mo dd) := by
  rcases matchIso3_head s.data y mo dd hiso with ⟨c, cs, hcons, hdig⟩
  have hic : 'i' ≠ c := digit_ne_of_high c 'i' hdig (by decide)
  unfold normalize_date_str
  dsimp only
  rw [hclean]
  rw [if_neg (by rw [hcons]; simp)]
  have hlowhead : lowerL s.data = c :: lowerL cs := by
    rw [hcons]
    simp only [lowerL, List.map_cons]
    rw [lowerC_digit_or_slash c (Or.inl hdig)]
  have h1 : startsWithL "idag".data (lowerL s.data) = false := by
    rw [hlowhead]
    exact startsWithL_cons_ne 'i' _ c _ hic
  have h2 : startsWithL "igår".data (lowerL s.data) = false := by
    rw [hlowhead]
    exact startsWithL_cons_ne 'i' _ c _ hic
  have h3 : startsWithL "igar".data (lowerL s.data) = false := by
    rw [hlowhead]
    exact startsWithL_cons_ne 'i' _ c _ hic
  have h4 : startsWithL "ig".data (lowerL s.data) = false := by
    rw [hlowhead]
    exact startsWithL_cons_ne 'i' _ c _ hic
  rw [if_neg (by simp [h1]), if_neg (by simp [h2, h3, h4])]
  rw [hiso]

/-- Every successful output of `normalize_date_token` is the canonical
rendering of a constructible (`datetime`-valid) calendar date: all grammar
branches pass through the guarded constructor, and the relative-word branches
emit today / yesterday / the day before, which are valid when today is. -/
theorem normalize_date_token_valid (today : SDate)
    (h1 : validDate today.year today.month today.day = true) (h2 : 2 ≤ today.year)
    (raw r : String) (h : normalize_date_token today raw = some r) :
    ∃ dt : SDate, validDate dt.year dt.month dt.day = true ∧ r = isoformat dt := by
  unfold normalize_date_token at h
  dsimp only at h
  split at h
  · simp at h
  · split at h
    · simp only [Option.some.injEq] at h
      exact ⟨today, h1, h.symm⟩
    · split at h
      · simp only [Option.some.injEq] at h
        exact ⟨predDate today, validDate_predDate today h1 (Or.inl h2), h.symm⟩
      · split at h
        · simp only [Option.some.injEq] at h
          exact ⟨predDate (predDate today), validDate_predDate2 today h1 h2, h.symm⟩
        · split at h
          · simp only [Option.some.injEq] at h
            exact ⟨predDate (predDate today), validDate_predDate2 today h1 h2, h.symm⟩
          · split at h
            · simp only [Option.some.injEq] at h
              exact ⟨predDate (predDate today), validDate_predDate2 today h1 h2, h.symm⟩
            · split at h
              · next r' hiso =>
                  simp only [Option.some.injEq] at h
                  split at hiso
                  · next y mo dd heq =>
                      rcases mkValidIso_some _ _ _ _ hiso with ⟨hv, hr⟩
                      exact ⟨⟨y, mo, dd⟩, hv, by rw [← h, hr]; rfl⟩
                  · simp at hiso
              · split at h
                · next r' hdma =>
                    simp only [Option.some.injEq] at h
                    split at hdma
                    · next dd m oy heq =>
                        rcases mkValidIso_some _ _ _ _ hdma with ⟨hv, hr⟩
                        exact ⟨⟨_, m, dd⟩, hv, by rw [← h, hr]; rfl⟩
                    · simp at hdma
                · split at h
                  · next r' htxa =>
                      simp only [Option.some.injEq] at h
                      split at htxa
                      · next dd tok oy heq =>
                          split at htxa
                          · next mn hres =>
                              rcases mkValidIso_some _ _ _ _ htxa with ⟨hv, hr⟩
                              exact ⟨⟨_, mn, dd⟩, hv, by rw [← h, hr]; rfl⟩
                          · simp at htxa
                      · simp at htxa
                  · split at h
                    · next dd m hany =>
                        rcases mkValidIso_some _ _ _ _ h with ⟨hv, hr⟩
                        exact ⟨⟨_, m, dd⟩, hv, by rw [hr]; rfl⟩
                    · simp at h

/-- C5 counterexample: `normalize_date_str` does not validate ISO-shaped
input as a calendar date: `"2025-13-32"` (month 13, day 32) is returned as a
successful result, and a `/`-separated ISO date is not accepted at all. -/
theorem claim_C5_counterexample :
    validDate 2025 13 32 = false ∧
    normalize_date_str ⟨2025, 1, 10⟩ "2025-13-32" = some "2025-13-32" ∧
    normalize_date_str ⟨2025, 1, 10⟩ "2025/09/15" = none := by
  refine ⟨by decide, by decide, by decide⟩

/-- C5 (amended): the bensinstation normalizer `normalize_date_token`
validates: every successful output is a constructible calendar date in
canonical form (so an ISO-shaped string that is not a valid calendar date is
never returned as a successful result), and it accepts both `-` and `/`
separators.  The bensinpriser normalizer `normalize_date_str` accepts only
the `-` separator and passes ISO-shaped input through zero-padded without
calendar validation, so invalid dates like month 13 are returned
successfully there. -/
theorem claim_C5_iso_validation (today : SDate)
    (h1 : validDate today.year today.month today.day = true) (h2 : 2 ≤ today.year) :
    (∀ raw r, normalize_date_token today raw = some r →
      ∃ dt : SDate, validDate dt.year dt.month dt.day = true ∧ r = isoformat dt) ∧
    (∀ (s : String) (y mo dd : Nat), pyStrip s.data = s.data →
      matchIso3 s.data = some (y, mo, dd) →
      normalize_date_str today s = some (fmtYMD y mo dd)) ∧
    normalize_date_token ⟨2025, 1, 10⟩ "2025-09-15" = some "2025-09-15" ∧
    normalize_date_token ⟨2025, 1, 10⟩ "2025/09/15" = some "2025-09-15" ∧
    normalize_date_token ⟨2025, 1, 10⟩ "2025-13-45" = none := by
  refine ⟨?_, ?_, by decide, by decide, by decide⟩
  · intro raw r h
    exact normalize_date_token_valid today h1 h2 raw r h
  · intro s y mo dd hclean hiso
    exact normalize_date_str_iso_passthrough today s y mo dd hclean hiso

/-- Witness for C5's amended theorem at concrete inputs. -/
theorem claim_C5_iso_validation_witness :
    (∃ dt : SDate, validDate dt.year dt.month dt.day = true ∧ "2024-09-15" = isoformat dt) ∧
    normalize_date_str ⟨2025, 1, 10⟩ "2025-13-32" = some (fmtYMD 2025 13 32) := by
  have h := claim_C5_iso_validation ⟨2025, 1, 10⟩ (by decide) (by decide)
  refine ⟨h.1 "15/9" "2024-09-15" (by decide), ?_⟩
  exact h.2.1 "2025-13-32" 2025 13 32 (by decide) (by decide)

theorem save_store_eq (today : SDate) (store : List SRow) (rows : List BRow) :
    (save_rows_scraped today store rows).2
      = store ++ (save_rows_scraped today store rows).1.toAdd := by
  simp only [save_rows_scraped]
  by_cases h : 0 < (rows.foldl (stepSave today) ⟨store.map storedBKey, [], 0, 0⟩).toAdd.length
  · rw [if_pos h]
  · rw [if_neg h]
    rcases hx : (rows.foldl (stepSave today) ⟨store.map storedBKey, [], 0, 0⟩).toAdd
      with _ | ⟨a, as⟩
    · rw [List.append_nil]
    · rw [hx] at h
      simp at h

theorem foldl_stepSave_all_keys (today : SDate) (rows : List BRow) (st : SaveState) :
    ∀ row ∈ rows, bkeyOf today row ∈ (rows.foldl (stepSave today) st).keys := by
  induction rows generalizing st with
  | nil => intro row hrow; simp at hrow
  | cons r rs ih =>
      intro row hrow
      rcases List.mem_cons.mp hrow with rfl | hrow'
      · exact foldl_stepSave_keys_sub today rs _ _ (stepSave_key_mem today st row)
      · exact ih (stepSave today st r) row hrow'

theorem stepSave_toAdd_mono (today : SDate) (st : SaveState) (row : BRow) (r' : SRow)
    (h : r' ∈ st.toAdd) : r' ∈ (stepSave today st row).toAdd := by
  unfold stepSave
  by_cases hmem : make_key row.bolag row.bensinpris row.dieselpris (fixDatum today row.datum)
      ∈ st.keys
  · rw [if_pos hmem]
    exact h
  · rw [if_neg hmem]
    exact List.mem_append_left _ h

theorem foldl_stepSave_toAdd_mono (today : SDate) (rows : List BRow) (st : SaveState)
    (r' : SRow) (h : r' ∈ st.toAdd) : r' ∈ (rows.foldl (stepSave today) st).toAdd := by
  induction rows generalizing st with
  | nil => exact h
  | cons r rs ih => exact ih _ (stepSave_toAdd_mono today st r r' h)

theorem stepSave_keys_charge (today : SDate) (st : SaveState) (row : BRow) (k : BKey)
    (hk : k ∈ (stepSave today st row).keys) :
    k ∈ st.keys ∨ k ∈ (stepSave today st row).toAdd.map storedBKey := by
  revert hk
  unfold stepSave
  by_cases hmem : make_key row.bolag row.bensinpris row.dieselpris (fixDatum today row.datum)
      ∈ st.keys
  · rw [if_pos hmem]
    exact fun hk => Or.inl hk
  · rw [if_neg hmem]
    intro hk
    rcases List.mem_cons.mp hk with rfl | hk'
    · right
      rw [List.map_append]
      apply List.mem_append_right
      simp only [List.map_cons, List.map_nil, List.mem_singleton]
      rfl
    · exact Or.inl hk'

theorem foldl_stepSave_keys_dest (today : SDate) (rows : List BRow) (st : SaveState)
    (k : BKey) (hk : k ∈ (rows.foldl (stepSave today) st).keys) :
    k ∈ st.keys ∨ k ∈ (rows.foldl (stepSave today) st).toAdd.map storedBKey := by
  induction rows generalizing st with
  | nil => exact Or.inl hk
  | cons r rs ih =>
      rcases ih (stepSave today st r) hk with h | h
      · rcases stepSave_keys_charge today st r k h with h' | h'
        · exact Or.inl h'
        · right
          rcases List.mem_map.mp h' with ⟨r', hr', rfl⟩
          exact List.mem_map_of_mem _ (foldl_stepSave_toAdd_mono today rs _ r' hr')
      · exact Or.inr h

theorem foldl_stepSave_all_dup (today : SDate) (rows : List BRow) (st : SaveState)
    (h : ∀ row ∈ rows, bkeyOf today row ∈ st.keys) :
    (rows.foldl (stepSave today) st).toAdd = st.toAdd ∧
    (rows.foldl (stepSave today) st).skipped = st.skipped + rows.length ∧
    (rows.foldl (stepSave today) st).keys = st.keys := by
  induction rows generalizing st with
  | nil => exact ⟨rfl, rfl, rfl⟩
  | cons r rs ih =>
      have hstep : stepSave today st r = bumpSkip st :=
        stepSave_skip_eq today st r (h r (List.mem_cons_self r rs))
      rw [List.foldl_cons, hstep]
      have ih' := ih (bumpSkip st) (fun row hrow => h row (List.mem_cons_of_mem r hrow))
      rcases ih' with ⟨h1, h2, h3⟩
      refine ⟨h1, ?_, h3⟩
      rw [h2]
      simp only [bumpSkip, List.length_cons]
      omega

/-- Bensinstation idempotence: re-running `save_rows_scraped` on the store
it just produced, with the same scraped rows, skips every row as a duplicate
and leaves the store unchanged. -/
theorem save_idempotent (today : SDate) (store : List SRow) (rows : List BRow) :
    (save_rows_scraped today (save_rows_scraped today store rows).2 rows).1.toAdd = [] ∧
    (save_rows_scraped today (save_rows_scraped today store rows).2 rows).1.skipped
      = rows.length ∧
    (save_rows_scraped today (save_rows_scraped today store rows).2 rows).2
      = (save_rows_scraped today store rows).2 := by
  have hstore1 := save_store_eq today store rows
  set st1 := rows.foldl (stepSave today) ⟨store.map storedBKey, [], 0, 0⟩ with hst1
  have hkeys1 : ∀ row ∈ rows, bkeyOf today row ∈ st1.keys :=
    fun row hrow => foldl_stepSave_all_keys today rows _ row hrow
  have htoAdd : (save_rows_scraped today store rows).1.toAdd = st1.toAdd := rfl
  have hkeys2 : ∀ row ∈ rows,
      bkeyOf today row ∈ ((save_rows_scraped today store rows).2.map storedBKey) := by
    intro row hrow
    rw [hstore1, List.map_append]
    rcases foldl_stepSave_keys_dest today rows _ _ (hkeys1 row hrow) with h | h
    · exact List.mem_append_left _ h
    · exact List.mem_append_right _ (htoAdd ▸ h)
  have hrun2 := foldl_stepSave_all_dup today rows
    ⟨(save_rows_scraped today store rows).2.map storedBKey, [], 0, 0⟩
    (fun row hrow => hkeys2 row hrow)
  rcases hrun2 with ⟨h1, h2, h3⟩
  refine ⟨h1, ?_, ?_⟩
  · show (rows.foldl (stepSave today)
        ⟨(save_rows_scraped today store rows).2.map storedBKey, [], 0, 0⟩).skipped = rows.length
    rw [h2]
    simp
  show (if 0 < (rows.foldl (stepSave today)
      ⟨(save_rows_scraped today store rows).2.map storedBKey, [], 0, 0⟩).toAdd.length
    then (save_rows_scraped today store rows).2 ++ _ else (save_rows_scraped today store rows).2)
      = (save_rows_scraped today store rows).2
  rw [h1]
  simp

/-- The identity key the dedup loop computes for a candidate. -/
def pkeyOf (r : PRow) : PKey :=
  make_key_norm r.station (some r.price) r.date (normalize_fuel r.fuel)

theorem stepMain_dup_eq (ek : List PKey) (fd : List (String × String)) (st : MainState)
    (r : PRow) (h : pkeyOf r ∈ ek ∨ pkeyOf r ∈ st.pendingKeys) :
    stepMain ek fd st r = { st with skippedDup := st.skippedDup + 1 } := by
  have h' : make_key_norm r.station (some r.price) r.date (normalize_fuel r.fuel) ∈ ek ∨
      make_key_norm r.station (some r.price) r.date (normalize_fuel r.fuel)
        ∈ st.pendingKeys := h
  unfold stepMain
  dsimp only
  rw [if_pos h']

theorem stepMain_cases (ek : List PKey) (fd : List (String × String)) (st : MainState)
    (r : PRow) :
    ((pkeyOf r ∈ ek ∨ pkeyOf r ∈ st.pendingKeys) ∧
      stepMain ek fd st r = { st with skippedDup := st.skippedDup + 1 }) ∨
    (priceOutOfBounds (normalize_fuel r.fuel) r.price = true ∧
      stepMain ek fd st r = { st with skippedPrice := st.skippedPrice + 1 }) ∨
    (stepMain ek fd st r = { st with skippedCap := st.skippedCap + 1 }) ∨
    (stepMain ek fd st r = { st with
        pendingKeys := pkeyOf r :: st.pendingKeys,
        pendingFuels := normalize_fuel r.fuel :: st.pendingFuels,
        toAppend := st.toAppend
          ++ [⟨r.station, r.price, r.date, normalize_fuel r.fuel, r.scrapeDate, r.source⟩],
        added := st.added + 1 }) := by
  by_cases hdup : (make_key_norm r.station (some r.price) r.date (normalize_fuel r.fuel) ∈ ek ∨
      make_key_norm r.station (some r.price) r.date (normalize_fuel r.fuel) ∈ st.pendingKeys)
  · exact Or.inl ⟨hdup, stepMain_dup_eq ek fd st r hdup⟩
  · by_cases hpr : priceOutOfBounds (normalize_fuel r.fuel) r.price = true
    · refine Or.inr (Or.inl ⟨hpr, ?_⟩)
      unfold stepMain
      dsimp only
      rw [if_neg hdup, if_pos hpr]
    · have haccept : stepMain ek fd st r = { st with skippedCap := st.skippedCap + 1 } ∨
          stepMain ek fd st r = { st with
            pendingKeys := pkeyOf r :: st.pendingKeys,
            pendingFuels := normalize_fuel r.fuel :: st.pendingFuels,
            toAppend := st.toAppend
              ++ [⟨r.station, r.price, r.date, normalize_fuel r.fuel, r.scrapeDate, r.source⟩],
            added := st.added + 1 } := by
        unfold stepMain
        dsimp only
        rw [if_neg hdup, if_neg hpr]
        cases hlim : ROW_LIMITS (normalize_fuel r.fuel) with
        | none => exact Or.inr rfl
        | some N =>
            by_cases hcap : N ≤ fd.count (normalize_fuel r.fuel, r.date)
                + st.pendingFuels.count (normalize_fuel r.fuel)
            · dsimp only
              rw [if_pos hcap]
              exact Or.inl rfl
            · dsimp only
              rw [if_neg hcap]
              exact Or.inr rfl
      rcases haccept with h | h
      · exact Or.inr (Or.inr (Or.inl h))
      · exact Or.inr (Or.inr (Or.inr h))

theorem stepMain_pending_mono (ek : List PKey) (fd : List (String × String)) (st : MainState)
    (r : PRow) (k : PKey) (h : k ∈ st.pendingKeys) : k ∈ (stepMain ek fd st r).pendingKeys := by
  rcases stepMain_cases ek fd st r with ⟨_, heq⟩ | ⟨_, heq⟩ | heq | heq <;> rw [heq]
  · exact h
  · exact h
  · exact h
  · exact List.mem_cons_of_mem _ h

theorem foldl_stepMain_pending_mono (ek : List PKey) (fd : List (String × String))
    (l : List PRow) (st : MainState) (k : PKey) (h : k ∈ st.pendingKeys) :
    k ∈ (l.foldl (stepMain ek fd) st).pendingKeys := by
  induction l generalizing st with
  | nil => exact h
  | cons c cs ih => exact ih _ (stepMain_pending_mono ek fd st c k h)

theorem stepMain_skippedCap_mono (ek : List PKey) (fd : List (String × String))
    (st : MainState) (r : PRow) : st.skippedCap ≤ (stepMain ek fd st r).skippedCap := by
  rcases stepMain_cases ek fd st r with ⟨_, heq⟩ | ⟨_, heq⟩ | heq | heq <;> rw [heq] <;>
    dsimp only <;> omega

theorem foldl_stepMain_skippedCap_mono (ek : List PKey) (fd : List (String × String))
    (l : List PRow) (st : MainState) :
    st.skippedCap ≤ (l.foldl (stepMain ek fd) st).skippedCap := by
  induction l generalizing st with
  | nil => exact le_refl _
  | cons c cs ih => exact le_trans (stepMain_skippedCap_mono ek fd st c) (ih _)

theorem mainNoCap_keys (ek : List PKey) (fd : List (String × String)) (l : List PRow)
    (st : MainState)
    (hb : ∀ c ∈ l, priceOutOfBounds (normalize_fuel c.fuel) c.price = false)
    (hcap : (l.foldl (stepMain ek fd) st).skippedCap = st.skippedCap) :
    ∀ c ∈ l, pkeyOf c ∈ ek ∨ pkeyOf c ∈ (l.foldl (stepMain ek fd) st).pendingKeys := by
  induction l generalizing st with
  | nil => intro c hc; simp at hc
  | cons c cs ih =>
      intro x hx
      rw [List.foldl_cons] at hcap ⊢
      rcases stepMain_cases ek fd st c with ⟨hdup, heq⟩ | ⟨hpr, _⟩ | heq | heq
      · have hcap' : (cs.foldl (stepMain ek fd) (stepMain ek fd st c)).skippedCap
            = (stepMain ek fd st c).skippedCap := by
          rw [heq] at hcap ⊢
          exact hcap
        rcases List.mem_cons.mp hx with rfl | hx'
        · rcases hdup with hdup | hdup
          · exact Or.inl hdup
          · right
            apply foldl_stepMain_pending_mono
            rw [heq]
            exact hdup
        · exact ih (stepMain ek fd st c)
            (fun y hy => hb y (List.mem_cons_of_mem c hy)) hcap' x hx'
      · have := hb c (List.mem_cons_self c cs)
        rw [hpr] at this
        simp at this
      · exfalso
        have hmono := foldl_stepMain_skippedCap_mono ek fd cs (stepMain ek fd st c)
        rw [heq] at hmono hcap
        dsimp only at hmono
        omega
      · have hcap' : (cs.foldl (stepMain ek fd) (stepMain ek fd st c)).skippedCap
            = (stepMain ek fd st c).skippedCap := by
          rw [heq] at hcap ⊢
          exact hcap
        rcases List.mem_cons.mp hx with rfl | hx'
        · right
          apply foldl_stepMain_pending_mono
          rw [heq]
          exact List.mem_cons_self _ _
        · exact ih (stepMain ek fd st c)
            (fun y hy => hb y (List.mem_cons_of_mem c hy)) hcap' x hx'

theorem mainAllDup (ek : List PKey) (fd : List (String × String)) (l : List PRow)
    (st : MainState) (h : ∀ c ∈ l, pkeyOf c ∈ ek) :
    (l.foldl (stepMain ek fd) st).added = st.added ∧
    (l.foldl (stepMain ek fd) st).skippedDup = st.skippedDup + l.length ∧
    (l.foldl (stepMain ek fd) st).toAppend = st.toAppend := by
  induction l generalizing st with
  | nil => exact ⟨rfl, rfl, rfl⟩
  | cons c cs ih =>
      rw [List.foldl_cons,
        stepMain_dup_eq ek fd st c (Or.inl (h c (List.mem_cons_self c cs)))]
      rcases ih { st with skippedDup := st.skippedDup + 1 }
        (fun x hx => h x (List.mem_cons_of_mem c hx)) with ⟨h1, h2, h3⟩
      refine ⟨h1, ?_, h3⟩
      rw [h2]
      dsimp only
      simp only [List.length_cons]
      omega

theorem foldl_stepMain_pending_loadKeys (today : SDate) (ek : List PKey)
    (fd : List (String × String)) (l : List PRow) (st : MainState)
    (hdate : ∀ c ∈ l, loadDate today c.date = c.date)
    (hinv : ∀ k ∈ st.pendingKeys, k ∈ st.toAppend.map (loadKey today)) :
    ∀ k ∈ (l.foldl (stepMain ek fd) st).pendingKeys,
      k ∈ (l.foldl (stepMain ek fd) st).toAppend.map (loadKey today) := by
  induction l generalizing st with
  | nil => exact hinv
  | cons c cs ih =>
      rw [List.foldl_cons]
      apply ih _ (fun x hx => hdate x (List.mem_cons_of_mem c hx))
      rcases stepMain_cases ek fd st c with ⟨_, heq⟩ | ⟨_, heq⟩ | heq | heq <;> rw [heq]
      · exact hinv
      · exact hinv
      · exact hinv
      · intro k hk
        dsimp only at hk ⊢
        rcases List.mem_cons.mp hk with rfl | hk'
        · rw [List.map_append]
          apply List.mem_append_right
          simp only [List.map_cons, List.map_nil, List.mem_singleton]
          unfold loadKey pkeyOf
          dsimp only
          rw [hdate c (List.mem_cons_self c cs), normalize_fuel_idem]
        · rw [List.map_append]
          exact List.mem_append_left _ (hinv k hk')

theorem mainRun_store_eq (today : SDate) (store cands : List PRow) :
    (mainRun today store cands).2 = store ++ (mainRun today store cands).1.toAppend := by
  simp only [mainRun]
  exact merge_is_append _ _

/-- Conditional bensinpriser idempotence: when the first run cap-rejected
nothing (and its candidates are scrape-shaped: in-bounds prices, stable
dates), a second run over the same candidates starting from the produced
store accepts nothing, classifies every candidate as a duplicate, and leaves
the store unchanged. -/
theorem main_idempotent_no_cap (today : SDate) (store cands : List PRow)
    (hb : ∀ c ∈ cands, priceOutOfBounds (normalize_fuel c.fuel) c.price = false)
    (hdate : ∀ c ∈ cands, loadDate today c.date = c.date)
    (hcap : (mainRun today store cands).1.skippedCap = 0) :
    (mainRun today (mainRun today store cands).2 cands).1.added = 0 ∧
    (mainRun today (mainRun today store cands).2 cands).1.skippedDup = cands.length ∧
    (mainRun today (mainRun today store cands).2 cands).2 = (mainRun today store cands).2 := by
  have hcap' : (cands.foldl
      (stepMain (store.map (loadKey today)) (store.map (loadFD today)))
      initMain).skippedCap = initMain.skippedCap := hcap
  have hkeys := mainNoCap_keys (store.map (loadKey today)) (store.map (loadFD today))
    cands initMain hb hcap'
  have hpend := foldl_stepMain_pending_loadKeys today (store.map (loadKey today))
    (store.map (loadFD today)) cands initMain hdate
    (by intro k hk; simp [initMain] at hk)
  have hstore1 := mainRun_store_eq today store cands
  have hall2 : ∀ c ∈ cands, pkeyOf c ∈ ((mainRun today store cands).2.map (loadKey today)) := by
    intro c hc
    rw [hstore1, List.map_append]
    rcases hkeys c hc with h | h
    · exact List.mem_append_left _ h
    · exact List.mem_append_right _ (hpend _ h)
  have hdup := mainAllDup ((mainRun today store cands).2.map (loadKey today))
    ((mainRun today store cands).2.map (loadFD today)) cands initMain hall2
  rcases hdup with ⟨h1, h2, h3⟩
  refine ⟨h1, ?_, ?_⟩
  · show (cands.foldl
        (stepMain ((mainRun today store cands).2.map (loadKey today))
          ((mainRun today store cands).2.map (loadFD today))) initMain).skippedDup
      = cands.length
    rw [h2]
    simp [initMain]
  · show (if (cands.foldl
        (stepMain ((mainRun today store cands).2.map (loadKey today))
          ((mainRun today store cands).2.map (loadFD today))) initMain).toAppend.isEmpty
      then (mainRun today store cands).2
      else (mainRun today store cands).2 ++ (cands.foldl
        (stepMain ((mainRun today store cands).2.map (loadKey today))
          ((mainRun today store cands).2.map (loadFD today))) initMain).toAppend)
      = (mainRun today store cands).2
    rw [h3]
    simp [initMain]

/-- C8 counterexample: cap bookkeeping breaks idempotence for bensinpriser.
Fuel `98` has cap 3.  Four in-bounds candidates (three on one date, one on
another) give 3 accepted + 1 cap-rejected on the first run; re-running on
byte-identical input accepts the previously cap-rejected candidate (its
per-(fuel, date) persisted count is 0 and the run-scoped pending count
restarts at 0), so the second run accepts 1 record — not 0 — not every
candidate is a duplicate, and the store changes. -/
theorem claim_C8_counterexample :
    (mainRun ⟨2025, 1, 10⟩ []
      [⟨"a", 15, "2025-01-02", "98", "sd", "src"⟩, ⟨"b", 15, "2025-01-02", "98", "sd", "src"⟩,
       ⟨"c", 15, "2025-01-02", "98", "sd", "src"⟩,
       ⟨"d", 15, "2025-01-03", "98", "sd", "src"⟩]).1.skippedCap = 1 ∧
    (mainRun ⟨2025, 1, 10⟩
      ((mainRun ⟨2025, 1, 10⟩ []
        [⟨"a", 15, "2025-01-02", "98", "sd", "src"⟩, ⟨"b", 15, "2025-01-02", "98", "sd", "src"⟩,
         ⟨"c", 15, "2025-01-02", "98", "sd", "src"⟩,
         ⟨"d", 15, "2025-01-03", "98", "sd", "src"⟩]).2)
      [⟨"a", 15, "2025-01-02", "98", "sd", "src"⟩, ⟨"b", 15, "2025-01-02", "98", "sd", "src"⟩,
       ⟨"c", 15, "2025-01-02", "98", "sd", "src"⟩,
       ⟨"d", 15, "2025-01-03", "98", "sd", "src"⟩]).1.added = 1 ∧
    (mainRun ⟨2025, 1, 10⟩
      ((mainRun ⟨2025, 1, 10⟩ []
        [⟨"a", 15, "2025-01-02", "98", "sd", "src"⟩, ⟨"b", 15, "2025-01-02", "98", "sd", "src"⟩,
         ⟨"c", 15, "2025-01-02", "98", "sd", "src"⟩,
         ⟨"d", 15, "2025-01-03", "98", "sd", "src"⟩]).2)
      [⟨"a", 15, "2025-01-02", "98", "sd", "src"⟩, ⟨"b", 15, "2025-01-02", "98", "sd", "src"⟩,
       ⟨"c", 15, "2025-01-02", "98", "sd", "src"⟩,
       ⟨"d", 15, "2025-01-03", "98", "sd", "src"⟩]).2
      ≠ (mainRun ⟨2025, 1, 10⟩ []
        [⟨"a", 15, "2025-01-02", "98", "sd", "src"⟩, ⟨"b", 15, "2025-01-02", "98", "sd", "src"⟩,
         ⟨"c", 15, "2025-01-02", "98", "sd", "src"⟩,
         ⟨"d", 15, "2025-01-03", "98", "sd", "src"⟩]).2 := by
  refine ⟨by decide, by decide, by decide⟩

/-- C8 (amended): the bensinstation pipeline is idempotent unconditionally:
a second `save_rows_scraped` over the same scraped rows skips everything as
duplicates and leaves the store unchanged.  The bensinpriser pipeline is
idempotent only when the first run cap-rejected no candidate (candidates
being scrape-shaped: in-bounds prices and normalization-stable dates);
a cap-rejected candidate may be accepted by the second run. -/
theorem claim_C8_idempotence (today : SDate) :
    (∀ (store : List SRow) (rows : List BRow),
      (save_rows_scraped today (save_rows_scraped today store rows).2 rows).1.toAdd = [] ∧
      (save_rows_scraped today (save_rows_scraped today store rows).2 rows).1.skipped
        = rows.length ∧
      (save_rows_scraped today (save_rows_scraped today store rows).2 rows).2
        = (save_rows_scraped today store rows).2) ∧
    (∀ (store cands : List PRow),
      (∀ c ∈ cands, priceOutOfBounds (normalize_fuel c.fuel) c.price = false) →
      (∀ c ∈ cands, loadDate today c.date = c.date) →
      (mainRun today store cands).1.skippedCap = 0 →
      (mainRun today (mainRun today store cands).2 cands).1.added = 0 ∧
      (mainRun today (mainRun today store cands).2 cands).1.skippedDup = cands.length ∧
      (mainRun today (mainRun today store cands).2 cands).2
        = (mainRun today store cands).2) := by
  exact ⟨fun store rows => save_idempotent today store rows,
    fun store cands hb hd hc => main_idempotent_no_cap today store cands hb hd hc⟩

/-- Witness for C8's amended theorem at concrete inputs. -/
theorem claim_C8_idempotence_witness :
    (save_rows_scraped ⟨2025, 1, 10⟩
      (save_rows_scraped ⟨2025, 1, 10⟩ [] [⟨"B", "15", "16", "17", "2025-01-09"⟩]).2
      [⟨"B", "15", "16", "17", "2025-01-09"⟩]).1.toAdd = [] ∧
    (mainRun ⟨2025, 1, 10⟩
      (mainRun ⟨2025, 1, 10⟩ [] [⟨"a", 15, "2025-01-02", "98", "sd", "src"⟩]).2
      [⟨"a", 15, "2025-01-02", "98", "sd", "src"⟩]).1.added = 0 := by
  have h := claim_C8_idempotence ⟨2025, 1, 10⟩
  refine ⟨(h.1 [] [⟨"B", "15", "16", "17", "2025-01-09"⟩]).1, ?_⟩
  exact (h.2 [] [⟨"a", 15, "2025-01-02", "98", "sd", "src"⟩]
    (by decide) (by decide) (by decide)).1
